import Mathlib

/-!
Verification of the doneTime persistent data layer.

The embedding models the IndexedDB-backed stores of the application as
association lists (the list order models the enumeration order of
`store.getAll()`); `store.put` is replace-by-key-or-append, `store.delete`
is removal by key.  JavaScript `Array.prototype.sort`, which is stable,
is modelled by a stable insertion sort.  `Date.now()` is passed in as an
explicit `now : Nat` argument, and the module-global `recentTagsMap` is
passed as an explicit function argument.
-/
/-- Recent-input record stored in the `recentInputs` object store
(keyPath `text`).  Fields that a JavaScript record may lack (`order`,
`tags`) are modelled with `Option`, `none` meaning the key is absent. -/
structure RecentRec where
  text : String
  pinned : Bool
  lastUsed : Nat
  order : Option Nat := none
  tags : Option (List String) := none
deriving DecidableEq, Repr

/-- Activity record stored in the `activities` object store
(keyPath `endTime`, ISO-8601 strings). -/
structure Activity where
  task : String
  startTime : String
  endTime : String
deriving DecidableEq, Repr

/-- Contents of the `recentInputs` store, in enumeration order. -/
abbrev RecentTable := List RecentRec

/-- Contents of the `activities` store, in enumeration order. -/
abbrev ActivityTable := List Activity

/-! ## Stable sort, modelling `Array.prototype.sort`

JavaScript `Array.prototype.sort` is stable; a stable insertion sort is
an equivalent model and is structurally recursive, so concrete instances
evaluate in the kernel. -/
/-- Insert `a` in front of the first element `b` with `le a b`. -/
def orderedInsert (le : α → α → Bool) (a : α) : List α → List α
  | [] => [a]
  | b :: l => if le a b then a :: b :: l else b :: orderedInsert le a l

/-- Stable insertion sort by the boolean comparison `le`. -/
def stableSort (le : α → α → Bool) : List α → List α
  | [] => []
  | a :: l => orderedInsert le a (stableSort le l)

/-! ## Store primitives

`store.put` on an IndexedDB object store replaces the record whose key
equals the key of the argument, or inserts the record if the key is
absent; `store.delete` removes the record with the given key. -/
/-- Model of `store.put(r)` on the `recentInputs` store (key `text`). -/
def putRecent : RecentTable → RecentRec → RecentTable
  | [], r => [r]
  | x :: xs, r => if x.text == r.text then r :: xs else x :: putRecent xs r

/-- Model of a sequence of `store.put` calls inside one transaction. -/
def putAll (st : RecentTable) (rs : List RecentRec) : RecentTable :=
  rs.foldl putRecent st

/-- Model of `store.get(t)` / lookup by primary key on `recentInputs`. -/
def findByText (st : RecentTable) (t : String) : Option RecentRec :=
  st.find? (fun r => r.text == t)

/-- Model of `store.delete(t)` on the `recentInputs` store. -/
def deleteByText (st : RecentTable) (t : String) : RecentTable :=
  st.filter (fun r => !(r.text == t))

/-- Keys (the `text` fields) of a recent table, in order. -/
@[reducible] def keysOf (st : RecentTable) : List String :=
  st.map (·.text)

/-! ## Comparators

`Array.prototype.sort` comparators from the source, as boolean
less-or-equal relations for the stable sort model. -/
/-- Comparator `(a, b) => (a.order ?? 0) - (b.order ?? 0)`. -/
def orderLe (a b : RecentRec) : Bool := a.order.getD 0 ≤ b.order.getD 0

/-- Comparator `(a, b) => (b.lastUsed || 0) - (a.lastUsed || 0)`
(sorts by `lastUsed` descending). -/
def lastUsedDesc (a b : RecentRec) : Bool := b.lastUsed ≤ a.lastUsed

/-- Lexicographic comparison of character lists; IndexedDB compares
string keys by their code units, which this models. -/
def charListLe : List Char → List Char → Bool
  | [], _ => true
  | _ :: _, [] => false
  | a :: as, b :: bs => if a = b then charListLe as bs else a < b

/-- String-key comparison used by the `by_endTime` index ordering. -/
def strLe (a b : String) : Bool := charListLe a.data b.data

/-- Index key comparison on activities (keyPath `endTime`). -/
def endTimeLe (a b : Activity) : Bool := strLe a.endTime b.endTime

/-! ## Recent-input store operations (from the source) -/
/-- Overrides object (`opts`) accepted by `upsertRecent`; `none` models
an absent key, so the object spread `{ ... , ...opts }` becomes `getD`. -/
structure UpsertOpts where
  pinned : Option Bool := none
  lastUsed : Option Nat := none
  order : Option (Option Nat) := none
  tags : Option (Option (List String)) := none

/-- Embedding of `upsertRecent(db, text, opts)`: reads any existing
record, builds `{ text, pinned: exists ? !!exists.pinned : false,
lastUsed: Date.now(), ...opts }` and puts it.  Note the spread does not
include the existing record, so fields absent from `opts` (for example
`order` and `tags`) are reset, not preserved. -/
def upsertRecent (now : Nat) (st : RecentTable) (text : String)
    (opts : UpsertOpts) : RecentTable :=
  let ex := findByText st text
  let next : RecentRec := {
    text := text
    pinned := opts.pinned.getD (match ex with | some e => e.pinned | none => false)
    lastUsed := opts.lastUsed.getD now
    order := opts.order.getD none
    tags := opts.tags.getD none }
  putRecent st next

/-- Embedding of `trimRecentUnpinned(db, keep)`: filter the unpinned
records, sort them by `lastUsed` descending, and when more than `keep`
remain delete every record beyond position `keep`. -/
def trimRecentUnpinned (st : RecentTable) (keep : Nat) : RecentTable :=
  let unpinned := stableSort lastUsedDesc (st.filter (fun r => !r.pinned))
  if unpinned.length ≤ keep then st
  else (unpinned.drop keep).foldl (fun acc r => deleteByText acc r.text) st

/-- Embedding of `reorderedRecent.forEach((item, index) => item.order = index)`,
generalised over the starting index for compositional reasoning. -/
def assignOrdersFrom (n : Nat) : List RecentRec → List RecentRec
  | [] => []
  | r :: rs => { r with order := some n } :: assignOrdersFrom (n + 1) rs

/-- Orders assigned from index `0`, as in the source. -/
def assignOrders (l : List RecentRec) : List RecentRec := assignOrdersFrom 0 l

/-- Unpinned branch of `updateRecentOrderForNewTask`: partition into
pinned and unpinned-except-`task` (each sorted ascending by `order`,
missing `order` read as `0`), prepend the fresh record for `task` to the
unpinned part, reassign dense orders over the concatenation and put
every record. -/
def newTaskUnpinnedReorder (now : Nat) (st : RecentTable) (task : String)
    (tags : Option (List String)) : RecentTable :=
  let pinnedItems := stableSort orderLe (st.filter (fun r => r.pinned))
  let unpinnedItems := stableSort orderLe (st.filter (fun r => !r.pinned && !(r.text == task)))
  let newItem : RecentRec :=
    { text := task, pinned := false, lastUsed := now, tags := tags, order := none }
  putAll st (assignOrders (pinnedItems ++ newItem :: unpinnedItems))

/-- Embedding of `updateRecentOrderForNewTask(db, task)`.  `tagsMap`
models the module-global `recentTagsMap`; `recentTagsMap.get(task) || []`
becomes `(tagsMap task).getD []`. -/
def updateRecentOrderForNewTask (now : Nat) (tagsMap : String → Option (List String))
    (st : RecentTable) (task : String) : RecentTable :=
  match findByText st task with
  | some e =>
    if e.pinned then putRecent st { e with lastUsed := now }
    else newTaskUnpinnedReorder now st task e.tags
  | none => newTaskUnpinnedReorder now st task (some ((tagsMap task).getD []))

/-- Embedding of `updateRecentOrderForPinToggle(db, task, newPinnedState)`.
When `task` has no record the source falls back to `upsertRecent`;
otherwise it partitions the remaining records, appends the target to the
pinned part (pinning) or prepends it to the unpinned part (unpinning),
reassigns dense orders and puts every record. -/
def updateRecentOrderForPinToggle (now : Nat) (st : RecentTable) (task : String)
    (newPinnedState : Bool) : RecentTable :=
  match findByText st task with
  | none => upsertRecent now st task { pinned := some newPinnedState }
  | some itemToUpdate =>
    let item' := { itemToUpdate with pinned := newPinnedState }
    let pinnedItems := stableSort orderLe (st.filter (fun r => r.pinned && !(r.text == task)))
    let unpinnedItems := stableSort orderLe (st.filter (fun r => !r.pinned && !(r.text == task)))
    let seq := if newPinnedState then pinnedItems ++ [item'] ++ unpinnedItems
               else pinnedItems ++ item' :: unpinnedItems
    putAll st (assignOrders seq)

/-- Embedding of `deleteRecent(db, text)`: a falsy argument (modelled by
`none` for `null`/`undefined` and by the empty string) returns `false`
without touching the store; otherwise the key is deleted and the call
returns `true`.  The second component is the resulting table. -/
def deleteRecent (st : RecentTable) (text : Option String) : Bool × RecentTable :=
  match text with
  | none => (false, st)
  | some s => if s == "" then (false, st) else (true, deleteByText st s)

/-! ## Activity store operations (from the source) -/
/-- Embedding of `getLastActivity(db)`: the `by_endTime` index enumerates
records in ascending key order and the `prev` cursor yields the record
with the greatest `endTime`, or `null` when the store is empty. -/
def getLastActivity (st : ActivityTable) : Option Activity :=
  (stableSort endTimeLe st).getLast?

/-- Embedding of `deleteActivityByEnd(db, endTime)`, analogous to
`deleteRecent`. -/
def deleteActivityByEnd (st : ActivityTable) (endTime : Option String) :
    Bool × ActivityTable :=
  match endTime with
  | none => (false, st)
  | some s => if s == "" then (false, st)
              else (true, st.filter (fun a => !(a.endTime == s)))

/-! ## Seeding (from the source) -/
/-- Application state relevant to seeding: the `localStorage` seed flag
`doneTime.seededPinnedDefaults.v5` and the `recentInputs` store. -/
structure SeedState where
  seeded : Bool
  recent : RecentTable
deriving DecidableEq, Repr

/-- Default pinned records written by `seedPinnedDefaults`. -/
def seedDefaultItems (now : Nat) : List RecentRec :=
  [ { text := "開始", pinned := true, lastUsed := now,
      tags := some ["集計対象外"], order := some 0 },
    { text := "休憩", pinned := true, lastUsed := now,
      tags := some ["集計対象外"], order := some 1 } ]

/-- Embedding of `seedPinnedDefaults(db)`: a no-op when the flag is set;
otherwise each default is merge-written and the flag is set.  The merge
`store.put({ ...exists, ...item })` equals `store.put(item)` because the
seed item assigns every field of the record. -/
def seedPinnedDefaults (now : Nat) (s : SeedState) : SeedState :=
  if s.seeded then s
  else { seeded := true, recent := putAll s.recent (seedDefaultItems now) }

/-! ## Transaction wrapper (from the source)

`withStore` wraps one IndexedDB transaction in a promise.  The shallow
embedding makes the asynchronous outcomes explicit inputs: the value the
callback returned (a plain value, or an `IDBRequest` together with the
outcome that request later reports), and an optional failure of the
transaction itself.  Per IndexedDB semantics an unhandled request error
aborts the transaction, and the source installs an empty handler on the
request precisely so that the transaction-level `onerror`/`onabort`
handlers report the failure. -/

/-- Value returned by the callback passed to `withStore`: either a plain
value, or an `IDBRequest` whose eventual outcome is a success value or an
error. -/
inductive CallbackResult (α : Type) where
  | plain (v : α)
  | request (outcome : Except String α)

/-- True when the callback returned a request that errors. -/
def requestFailed : CallbackResult α → Bool
  | .request (.error _) => true
  | _ => false

/-- Embedding of `withStore`: a transaction-level abort or error rejects
with that error; a request error (unhandled on the request, hence
aborting the transaction) rejects with that error; on completion the
promise resolves with the request result when the callback returned a
request, and with the raw callback result otherwise. -/
def withStore (res : CallbackResult α) (txFailure : Option String) : Except String α :=
  match txFailure with
  | some e => Except.error e
  | none =>
    match res with
    | .plain v => Except.ok v
    | .request (Except.ok v) => Except.ok v
    | .request (Except.error e) => Except.error e

/-! ## Formatting utilities (from the source)

The linkifier works on `List Char`; the `String` wrappers pack the
result.  `escapeHtml` is the source chain of five global single-character
replacements, in source order. -/

/-- Replacement of every occurrence of the character `c` by the string
`r`, modelling `String.prototype.replace(/c/g, r)`. -/
def replaceAllChar : List Char → Char → List Char → List Char
  | [], _, _ => []
  | x :: xs, c, r => (if x = c then r else [x]) ++ replaceAllChar xs c r

/-- Embedding of `escapeHtml`: replaces, in order, ampersand, the angle
brackets, the double quote and the apostrophe by their HTML entities. -/
def escapeHtmlL (s : List Char) : List Char :=
  replaceAllChar (replaceAllChar (replaceAllChar (replaceAllChar
    (replaceAllChar s '&' "&amp;".data)
    '<' "&lt;".data)
    '>' "&gt;".data)
    '"' "&quot;".data)
    '\'' "&#039;".data

/-- String-valued `escapeHtml`. -/
def escapeHtml (s : String) : String := (escapeHtmlL s.data).asString

/-- Characters `encodeURIComponent` leaves unescaped. -/
def uriUnreserved (c : Char) : Bool :=
  c.isAlpha || c.isDigit || c = '-' || c = '_' || c = '.' || c = '!' ||
    c = '~' || c = '*' || c = '\'' || c = '(' || c = ')'

/-- Uppercase hexadecimal digit for `n < 16`. -/
def hexDigitChar (n : Nat) : Char :=
  if n < 10 then Char.ofNat ('0'.toNat + n) else Char.ofNat ('A'.toNat + n - 10)

/-- UTF-8 bytes of one character, as numbers. -/
def utf8Bytes (c : Char) : List Nat :=
  let n := c.toNat
  if n < 128 then [n]
  else if n < 2048 then [192 + n / 64, 128 + n % 64]
  else if n < 65536 then [224 + n / 4096, 128 + (n / 64) % 64, 128 + n % 64]
  else [240 + n / 262144, 128 + (n / 4096) % 64, 128 + (n / 64) % 64, 128 + n % 64]

/-- Embedding of `encodeURIComponent`. -/
def encodeURIComponentL (s : List Char) : List Char :=
  (s.map (fun c =>
    if uriUnreserved c then [c]
    else ((utf8Bytes c).map (fun b => ['%', hexDigitChar (b / 16), hexDigitChar (b % 16)])).flatten)).flatten

/-- Embedding of `tpl.replaceAll(SUBST, repl)` where `SUBST` is the
four-character placeholder brace-i-d-brace from the source template. -/
def replaceIdAll : List Char → List Char → List Char
  | '\x7b' :: 'i' :: 'd' :: '\x7d' :: rest, repl => repl ++ replaceIdAll rest repl
  | c :: rest, repl => c :: replaceIdAll rest repl
  | [], _ => []

/-- Anchor emitted for one regex match `m`: the id is `m` without its
leading hash when present, URL-encoded into the template, and the link
text is `escapeHtml(m)`. -/
def anchorFor (tpl : List Char) (m : List Char) : List Char :=
  let ticketId := if m.head? = some '#' then m.tail else m
  let href := replaceIdAll tpl (encodeURIComponentL ticketId)
  "<a href=\"".data ++ href ++
    "\" target=\"_blank\" rel=\"noopener noreferrer\">".data ++
    escapeHtmlL m ++ "</a>".data

/-- ASCII uppercase letter, the character class of the regex. -/
def isUpperAZ (c : Char) : Bool := 'A' ≤ c && c ≤ 'Z'

/-- Continuation characters of the project-style id. -/
def isIdentTail (c : Char) : Bool := isUpperAZ c || c.isDigit || c = '_'

/-- Left-to-right scan of the alternation regex of `linkifyTask`
(hash-digits, or uppercase-id dash digits), replacing each
non-overlapping match by its anchor.  The fuel argument bounds the
recursion; every step consumes at least one character, so fuel equal to
the length of the input (as supplied by `linkifyCore`) never runs out. -/
def linkifyScan (tpl : List Char) : Nat → List Char → List Char
  | 0, _ => []
  | _ + 1, [] => []
  | fuel + 1, c :: rest =>
    if c = '#' then
      let ds := rest.takeWhile Char.isDigit
      if ds.isEmpty then c :: linkifyScan tpl fuel rest
      else anchorFor tpl (c :: ds) ++ linkifyScan tpl fuel (rest.dropWhile Char.isDigit)
    else if isUpperAZ c then
      match rest.dropWhile isIdentTail with
      | '-' :: r2 =>
        let ds := r2.takeWhile Char.isDigit
        if ds.isEmpty then c :: linkifyScan tpl fuel rest
        else anchorFor tpl ((c :: rest.takeWhile isIdentTail) ++ '-' :: ds) ++
          linkifyScan tpl fuel (r2.dropWhile Char.isDigit)
      | _ => c :: linkifyScan tpl fuel rest
    else c :: linkifyScan tpl fuel rest

/-- Regex replacement pass of `linkifyTask` over an escaped string. -/
def linkifyCore (tpl : List Char) (s : List Char) : List Char :=
  linkifyScan tpl s.length s

/-- Settings object persisted in `localStorage`. -/
structure Settings where
  ticketUrlTemplate : String

/-- Embedding of `linkifyTask(text, settings)`: with no template the
escaped text is returned unchanged; otherwise the escaped text goes
through the regex replacement pass. -/
def linkifyTask (text : String) (settings : Settings) : String :=
  let tpl := settings.ticketUrlTemplate
  if tpl = "" then escapeHtml text
  else (linkifyCore tpl.data (escapeHtmlL text.data)).asString

/-! ## Sample data used by witnesses -/

/-- Sample pinned record. -/
def sampleP : RecentRec := { text := "P", pinned := true, lastUsed := 1, order := some 0 }

/-- Sample unpinned record. -/
def sampleU : RecentRec := { text := "U", pinned := false, lastUsed := 2, order := some 1 }

/-- Second sample unpinned record. -/
def sampleV : RecentRec := { text := "V", pinned := false, lastUsed := 3, order := some 2 }

/-- Sample empty tags map. -/
def sampleTagsMap : String → Option (List String) := fun _ => none

/-- Sample activity with the earlier end time. -/
def sampleAct1 : Activity :=
  { task := "A", startTime := "2025-01-01T00:00:00.000Z", endTime := "2025-01-01T01:00:00.000Z" }

/-- Sample activity with the later end time. -/
def sampleAct2 : Activity :=
  { task := "B", startTime := "2025-01-01T01:00:00.000Z", endTime := "2025-01-01T02:00:00.000Z" }

/-- Existing record with `order` and `tags` set, for the upsert counterexample. -/
def cexRecA : RecentRec :=
  { text := "A", pinned := false, lastUsed := 0, order := some 5, tags := some ["t"] }

/-- Record actually written by the upsert of the counterexample. -/
def cexRecAafter : RecentRec :=
  { text := "A", pinned := true, lastUsed := 1, order := none, tags := none }

/-- Sample settings with a configured ticket URL template. -/
def sampleSettings : Settings :=
  { ticketUrlTemplate := "https://tickets.example/\x7bid\x7d" }

/-- Sample task text containing an apostrophe. -/
def sampleTaskText : String := List.asString ['d', 'o', 'n', '\'', 't']

/-! ## Theorems -/

theorem perm_orderedInsert (le : α → α → Bool) (a : α) (l : List α) :
    List.Perm (orderedInsert le a l) (a :: l) := by
  induction l with
  | nil => simp [orderedInsert]
  | cons b l ih =>
    simp only [orderedInsert]
    split
    · exact List.Perm.refl _
    · exact (List.Perm.cons b ih).trans (List.Perm.swap a b l)

theorem stableSort_perm (le : α → α → Bool) (l : List α) :
    List.Perm (stableSort le l) l := by
  induction l with
  | nil => simp [stableSort]
  | cons a l ih =>
    exact (perm_orderedInsert le a (stableSort le l)).trans (List.Perm.cons a ih)

theorem mem_stableSort (le : α → α → Bool) (l : List α) (x : α) :
    x ∈ stableSort le l ↔ x ∈ l :=
  (stableSort_perm le l).mem_iff

theorem length_stableSort (le : α → α → Bool) (l : List α) :
    (stableSort le l).length = l.length :=
  (stableSort_perm le l).length_eq

theorem sorted_orderedInsert (le : α → α → Bool)
    (htrans : ∀ a b c, le a b = true → le b c = true → le a c = true)
    (htot : ∀ a b, (le a b || le b a) = true) (a : α) (l : List α)
    (hl : l.Pairwise (fun x y => le x y = true)) :
    (orderedInsert le a l).Pairwise (fun x y => le x y = true) := by
  induction l with
  | nil => simp [orderedInsert]
  | cons b l ih =>
    obtain ⟨hb, hl'⟩ := List.pairwise_cons.mp hl
    simp only [orderedInsert]
    split
    · rename_i hab
      refine List.Pairwise.cons ?_ hl
      intro x hx
      rcases List.mem_cons.mp hx with rfl | hx
      · exact hab
      · exact htrans a b x hab (hb x hx)
    · rename_i hab
      have hba : le b a = true := by
        rcases Bool.or_eq_true_iff.mp (htot a b) with h | h
        · exact absurd h hab
        · exact h
      refine List.Pairwise.cons ?_ (ih hl')
      intro x hx
      rcases List.mem_cons.mp ((perm_orderedInsert le a l).mem_iff.mp hx) with rfl | hx
      · exact hba
      · exact hb x hx

theorem sorted_stableSort (le : α → α → Bool)
    (htrans : ∀ a b c, le a b = true → le b c = true → le a c = true)
    (htot : ∀ a b, (le a b || le b a) = true) (l : List α) :
    (stableSort le l).Pairwise (fun x y => le x y = true) := by
  induction l with
  | nil => simp [stableSort]
  | cons a l ih => exact sorted_orderedInsert le htrans htot a (stableSort le l) ih

theorem keysOf_nil : keysOf [] = [] := rfl

theorem keysOf_cons (x : RecentRec) (xs : RecentTable) :
    keysOf (x :: xs) = x.text :: keysOf xs := rfl

theorem mem_keysOf (st : RecentTable) (t : String) :
    t ∈ keysOf st ↔ ∃ y ∈ st, y.text = t := by
  simp [keysOf, List.mem_map, eq_comm]

theorem findByText_nil (t : String) : findByText [] t = none := rfl

theorem findByText_cons (x : RecentRec) (xs : RecentTable) (t : String) :
    findByText (x :: xs) t = if x.text = t then some x else findByText xs t := by
  by_cases h : x.text = t
  · rw [if_pos h]
    exact List.find?_cons_of_pos _ (by simp [h])
  · rw [if_neg h]
    exact List.find?_cons_of_neg _ (by simp [h])

theorem findByText_putRecent (st : RecentTable) (r : RecentRec) (t : String) :
    findByText (putRecent st r) t = if t = r.text then some r else findByText st t := by
  induction st with
  | nil =>
    show findByText [r] t = _
    rw [findByText_cons, findByText_nil]
    by_cases h : t = r.text
    · rw [if_pos h.symm, if_pos h]
    · rw [if_neg (fun h' => h h'.symm), if_neg h]
  | cons x xs ih =>
    by_cases hxr : x.text = r.text
    · have hb : (x.text == r.text) = true := by simp [hxr]
      show findByText (if x.text == r.text then r :: xs else x :: putRecent xs r) t = _
      rw [hb, if_pos rfl, findByText_cons, findByText_cons]
      by_cases ht : t = r.text
      · rw [if_pos ht.symm, if_pos ht]
      · rw [if_neg (fun h' => ht h'.symm), if_neg ht,
          if_neg (fun h' => ht (h'.symm.trans hxr))]
    · have hb : (x.text == r.text) = false := by simp [hxr]
      show findByText (if x.text == r.text then r :: xs else x :: putRecent xs r) t = _
      rw [hb]
      show findByText (x :: putRecent xs r) t = _
      rw [findByText_cons, findByText_cons]
      by_cases hxt : x.text = t
      · have ht : ¬t = r.text := fun h => hxr (hxt.trans h)
        rw [if_pos hxt, if_neg ht, if_pos hxt]
      · rw [if_neg hxt, if_neg hxt, ih]

theorem keysOf_putRecent (st : RecentTable) (r : RecentRec) :
    keysOf (putRecent st r) =
      if r.text ∈ keysOf st then keysOf st else keysOf st ++ [r.text] := by
  induction st with
  | nil => simp [putRecent, keysOf]
  | cons x xs ih =>
    by_cases hxr : x.text = r.text
    · have hb : (x.text == r.text) = true := by simp [hxr]
      show keysOf (if x.text == r.text then r :: xs else x :: putRecent xs r) = _
      rw [hb, if_pos rfl, keysOf_cons, keysOf_cons]
      rw [if_pos (List.mem_cons.mpr (Or.inl hxr.symm))]
      rw [hxr]
    · have hb : (x.text == r.text) = false := by simp [hxr]
      show keysOf (if x.text == r.text then r :: xs else x :: putRecent xs r) = _
      rw [hb]
      show keysOf (x :: putRecent xs r) = _
      rw [keysOf_cons, ih, keysOf_cons]
      by_cases hm : r.text ∈ keysOf xs
      · rw [if_pos hm, if_pos (List.mem_cons.mpr (Or.inr hm))]
      · have : r.text ∉ x.text :: keysOf xs := by
          intro hc
          rcases List.mem_cons.mp hc with h | h
          · exact hxr h.symm
          · exact hm h
        rw [if_neg hm, if_neg this, List.cons_append]

theorem mem_keysOf_putRecent (st : RecentTable) (r : RecentRec) (t : String) :
    t ∈ keysOf (putRecent st r) ↔ t ∈ keysOf st ∨ t = r.text := by
  rw [keysOf_putRecent]
  split
  · rename_i h
    constructor
    · exact Or.inl
    · rintro (h' | rfl)
      · exact h'
      · exact h
  · simp

theorem nodup_keysOf_putRecent (st : RecentTable) (r : RecentRec)
    (h : (keysOf st).Nodup) : (keysOf (putRecent st r)).Nodup := by
  rw [keysOf_putRecent]
  split
  · exact h
  · rename_i hnm
    rw [List.nodup_append]
    refine ⟨h, List.nodup_singleton _, fun a ha hb => ?_⟩
    rw [List.mem_singleton] at hb
    exact hnm (hb ▸ ha)

theorem putAll_cons (st : RecentTable) (r : RecentRec) (rs : List RecentRec) :
    putAll st (r :: rs) = putAll (putRecent st r) rs := rfl

theorem putAll_nil (st : RecentTable) : putAll st [] = st := rfl

theorem mem_keysOf_putAll (st : RecentTable) (rs : List RecentRec) (t : String) :
    t ∈ keysOf (putAll st rs) ↔ t ∈ keysOf st ∨ t ∈ keysOf rs := by
  induction rs generalizing st with
  | nil => simp [putAll_nil, keysOf]
  | cons r rs ih =>
    rw [putAll_cons, ih, mem_keysOf_putRecent, keysOf_cons, List.mem_cons]
    tauto

theorem nodup_keysOf_putAll (st : RecentTable) (rs : List RecentRec)
    (h : (keysOf st).Nodup) : (keysOf (putAll st rs)).Nodup := by
  induction rs generalizing st with
  | nil => exact h
  | cons r rs ih => exact putAll_cons st r rs ▸ ih _ (nodup_keysOf_putRecent st r h)

theorem findByText_putAll (st : RecentTable) (rs : List RecentRec) (t : String)
    (hrs : (keysOf rs).Nodup) :
    findByText (putAll st rs) t = (findByText rs t).or (findByText st t) := by
  induction rs generalizing st with
  | nil => simp [putAll_nil, findByText]
  | cons r rs ih =>
    rw [keysOf_cons] at hrs
    obtain ⟨hnm, hnd⟩ := List.nodup_cons.mp hrs
    rw [putAll_cons, ih _ hnd, findByText_putRecent, findByText_cons]
    by_cases ht : t = r.text
    · have h1 : findByText rs t = none := by
        rw [findByText, List.find?_eq_none]
        intro x hx
        simp only [beq_iff_eq]
        intro hxt
        exact hnm ((mem_keysOf rs r.text).mpr ⟨x, hx, ht ▸ hxt⟩)
      rw [if_pos ht, if_pos ht.symm, h1]
      rfl
    · rw [if_neg ht, if_neg (fun h => ht h.symm)]

theorem mem_iff_findByText (l : RecentTable) (x : RecentRec)
    (h : (keysOf l).Nodup) : x ∈ l ↔ findByText l x.text = some x := by
  induction l with
  | nil => simp [findByText]
  | cons y ys ih =>
    rw [keysOf_cons] at h
    obtain ⟨hnm, hnd⟩ := List.nodup_cons.mp h
    rw [findByText_cons]
    by_cases hyx : y.text = x.text
    · have hys : x ∉ ys := fun hx => hnm ((mem_keysOf ys y.text).mpr ⟨x, hx, hyx.symm⟩)
      rw [if_pos hyx]
      constructor
      · intro hmem
        rcases List.mem_cons.mp hmem with rfl | hx
        · rfl
        · exact absurd hx hys
      · intro h'
        exact List.mem_cons.mpr (Or.inl (Option.some.inj h').symm)
    · rw [if_neg hyx]
      constructor
      · intro hmem
        rcases List.mem_cons.mp hmem with rfl | hx
        · exact absurd rfl hyx
        · exact (ih hnd).mp hx
      · intro h'
        exact List.mem_cons.mpr (Or.inr ((ih hnd).mpr h'))

theorem findByText_eq_some (l : RecentTable) (t : String) (x : RecentRec)
    (h : findByText l t = some x) : x ∈ l ∧ x.text = t := by
  refine ⟨List.mem_of_find?_eq_some h, ?_⟩
  have := List.find?_some h
  simpa [beq_iff_eq] using this

theorem putAll_perm (st : RecentTable) (rs : List RecentRec)
    (hst : (keysOf st).Nodup) (hrs : (keysOf rs).Nodup)
    (hsub : ∀ t ∈ keysOf st, t ∈ keysOf rs) :
    List.Perm (putAll st rs) rs := by
  have hnd1 : (keysOf (putAll st rs)).Nodup := nodup_keysOf_putAll st rs hst
  refine (List.perm_ext_iff_of_nodup (List.Nodup.of_map _ hnd1)
    (List.Nodup.of_map _ hrs)).mpr ?_
  intro x
  constructor
  · intro hx
    have hfind := (mem_iff_findByText _ x hnd1).mp hx
    rw [findByText_putAll st rs x.text hrs] at hfind
    cases hfrs : findByText rs x.text with
    | some y =>
      rw [hfrs] at hfind
      simp only [Option.or_some] at hfind
      exact (Option.some.inj hfind) ▸ (findByText_eq_some rs x.text y hfrs).1
    | none =>
      rw [hfrs] at hfind
      simp only [Option.or_none, Option.none_or] at hfind
      have hmem := (findByText_eq_some st x.text x hfind).1
      have hkey : x.text ∈ keysOf rs :=
        hsub x.text ((mem_keysOf st x.text).mpr ⟨x, hmem, rfl⟩)
      obtain ⟨y, hy, hyt⟩ := (mem_keysOf rs x.text).mp hkey
      have := List.find?_eq_none.mp hfrs y hy
      simp [beq_iff_eq, hyt] at this
  · intro hx
    have hfind := (mem_iff_findByText rs x hrs).mp hx
    have : findByText (putAll st rs) x.text = some x := by
      rw [findByText_putAll st rs x.text hrs, hfind]
      rfl
    exact (findByText_eq_some _ _ _ this).1

theorem mem_foldl_deleteByText (ds : List RecentRec) (st : RecentTable) (x : RecentRec) :
    x ∈ ds.foldl (fun acc r => deleteByText acc r.text) st ↔
      x ∈ st ∧ ∀ d ∈ ds, ¬x.text = d.text := by
  induction ds generalizing st with
  | nil => simp
  | cons d ds ih =>
    rw [List.foldl_cons, ih]
    simp only [deleteByText, List.mem_filter, Bool.not_eq_eq_eq_not, Bool.not_true,
      beq_eq_false_iff_ne, ne_eq, List.mem_cons, decide_eq_true_eq]
    constructor
    · rintro ⟨⟨hmem, hne⟩, hall⟩
      refine ⟨hmem, ?_⟩
      rintro e (rfl | he)
      · exact hne
      · exact hall e he
    · rintro ⟨hmem, hall⟩
      exact ⟨⟨hmem, hall d (Or.inl rfl)⟩, fun e he => hall e (Or.inr he)⟩

theorem charListLe_refl : ∀ a : List Char, charListLe a a = true := by
  intro a
  induction a with
  | nil => rfl
  | cons x xs ih => simp [charListLe, ih]

theorem charListLe_total : ∀ a b : List Char, (charListLe a b || charListLe b a) = true := by
  intro a
  induction a with
  | nil => intro b; simp [charListLe]
  | cons x as ih =>
    intro b
    cases b with
    | nil => simp [charListLe]
    | cons y bs =>
      by_cases hxy : x = y
      · subst hxy
        simp [charListLe, ih bs]
      · have hyx : ¬y = x := fun h => hxy h.symm
        rcases lt_or_gt_of_ne hxy with h | h
        · simp [charListLe, hxy, hyx, h]
        · simp [charListLe, hxy, hyx, h]

theorem charListLe_trans : ∀ a b c : List Char,
    charListLe a b = true → charListLe b c = true → charListLe a c = true := by
  intro a
  induction a with
  | nil => intro b c _ _; rfl
  | cons x as ih =>
    intro b c hab hbc
    cases b with
    | nil => simp [charListLe] at hab
    | cons y bs =>
      cases c with
      | nil => simp [charListLe] at hbc
      | cons z cs =>
        by_cases hxy : x = y <;> by_cases hyz : y = z
        · subst hxy; subst hyz
          simp only [charListLe, if_pos rfl] at hab hbc ⊢
          exact ih bs cs hab hbc
        · subst hxy
          simp only [charListLe, if_pos rfl, if_neg hyz, decide_eq_true_eq] at hbc ⊢
          exact hbc
        · subst hyz
          simp only [charListLe, if_neg hxy, decide_eq_true_eq] at hab ⊢
          exact hab
        · simp only [charListLe, if_neg hxy, if_neg hyz, decide_eq_true_eq] at hab hbc
          have hxz : x < z := lt_trans hab hbc
          simp [charListLe, ne_of_lt hxz, hxz]

/-! ## Lemmas about order assignment and sorted partitions -/
theorem assignOrdersFrom_nil (n : Nat) : assignOrdersFrom n [] = [] := rfl

theorem assignOrdersFrom_cons (n : Nat) (r : RecentRec) (rs : List RecentRec) :
    assignOrdersFrom n (r :: rs) =
      { r with order := some n } :: assignOrdersFrom (n + 1) rs := rfl

theorem assignOrdersFrom_append (n : Nat) (A B : List RecentRec) :
    assignOrdersFrom n (A ++ B) =
      assignOrdersFrom n A ++ assignOrdersFrom (n + A.length) B := by
  induction A generalizing n with
  | nil => simp [assignOrdersFrom]
  | cons a A ih =>
    simp only [List.cons_append, assignOrdersFrom_cons, ih (n + 1), List.length_cons]
    have h : n + 1 + A.length = n + (A.length + 1) := by omega
    rw [h]

theorem length_assignOrdersFrom (n : Nat) (l : List RecentRec) :
    (assignOrdersFrom n l).length = l.length := by
  induction l generalizing n with
  | nil => rfl
  | cons r rs ih => simp [assignOrdersFrom_cons, ih]

theorem keysOf_assignOrdersFrom (n : Nat) (l : List RecentRec) :
    keysOf (assignOrdersFrom n l) = keysOf l := by
  induction l generalizing n with
  | nil => rfl
  | cons r rs ih => simp [assignOrdersFrom_cons, keysOf_cons, ih]

theorem map_order_assignOrdersFrom (n : Nat) (l : List RecentRec) :
    (assignOrdersFrom n l).map (·.order) = (List.range' n l.length).map some := by
  induction l generalizing n with
  | nil => rfl
  | cons r rs ih => simp [assignOrdersFrom_cons, List.range'_succ, ih]

theorem of_mem_assignOrdersFrom (n : Nat) (l : List RecentRec) (y : RecentRec)
    (hy : y ∈ assignOrdersFrom n l) :
    ∃ z ∈ l, ∃ i, n ≤ i ∧ i < n + l.length ∧ y = { z with order := some i } := by
  induction l generalizing n with
  | nil => simp [assignOrdersFrom_nil] at hy
  | cons r rs ih =>
    rw [assignOrdersFrom_cons] at hy
    rcases List.mem_cons.mp hy with rfl | hy
    · exact ⟨r, List.mem_cons_self r rs, n, le_refl n, by simp, rfl⟩
    · obtain ⟨z, hz, i, hni, hlt, heq⟩ := ih (n + 1) hy
      refine ⟨z, List.mem_cons_of_mem r hz, i, by omega, ?_, heq⟩
      simp only [List.length_cons]
      omega

theorem mem_assignOrdersFrom_of_mem (n : Nat) (l : List RecentRec) (z : RecentRec)
    (hz : z ∈ l) :
    ∃ i, { z with order := some i } ∈ assignOrdersFrom n l ∧ n ≤ i ∧ i < n + l.length := by
  induction l generalizing n with
  | nil => simp at hz
  | cons r rs ih =>
    rcases List.mem_cons.mp hz with rfl | hz
    · exact ⟨n, by rw [assignOrdersFrom_cons]; exact List.mem_cons_self _ _,
        le_refl n, by simp⟩
    · obtain ⟨i, hmem, hni, hlt⟩ := ih (n + 1) hz
      refine ⟨i, ?_, by omega, ?_⟩
      · rw [assignOrdersFrom_cons]
        exact List.mem_cons_of_mem _ hmem
      · simp only [List.length_cons]
        omega

theorem keysOf_stableSort (le : RecentRec → RecentRec → Bool) (l : RecentTable) :
    List.Perm (keysOf (stableSort le l)) (keysOf l) := by
  show List.Perm ((stableSort le l).map (·.text)) (l.map (·.text))
  exact (stableSort_perm le l).map _

theorem nodup_keysOf_filter (p : RecentRec → Bool) (st : RecentTable)
    (h : (keysOf st).Nodup) : (keysOf (st.filter p)).Nodup := by
  have h' : (st.map (·.text)).Nodup := h
  show ((st.filter p).map (·.text)).Nodup
  exact ((st.filter_sublist (p := p)).map (·.text)).nodup h'

theorem nodup_keysOf_stableSort_filter (le : RecentRec → RecentRec → Bool)
    (p : RecentRec → Bool) (st : RecentTable) (h : (keysOf st).Nodup) :
    (keysOf (stableSort le (st.filter p))).Nodup :=
  (keysOf_stableSort le (st.filter p)).nodup_iff.mpr (nodup_keysOf_filter p st h)

theorem mem_keysOf_stableSort (le : RecentRec → RecentRec → Bool) (l : RecentTable)
    (t : String) : t ∈ keysOf (stableSort le l) ↔ t ∈ keysOf l :=
  (keysOf_stableSort le l).mem_iff

theorem text_inj_of_nodup (st : RecentTable) (hst : (keysOf st).Nodup) :
    ∀ x ∈ st, ∀ y ∈ st, x.text = y.text → x = y := by
  intro x hx y hy hxy
  have h1 := (mem_iff_findByText st x hst).mp hx
  have h2 := (mem_iff_findByText st y hst).mp hy
  rw [hxy, h2] at h1
  exact (Option.some.inj h1).symm

theorem mem_stableSort_filter (le : RecentRec → RecentRec → Bool) (p : RecentRec → Bool)
    (st : RecentTable) (x : RecentRec) :
    x ∈ stableSort le (st.filter p) ↔ x ∈ st ∧ p x = true := by
  rw [mem_stableSort, List.mem_filter]

theorem putRecent_replace (st : RecentTable) (r : RecentRec)
    (hst : (keysOf st).Nodup) (hmem : r.text ∈ keysOf st) :
    putRecent st r = st.map (fun x => if x.text = r.text then r else x) := by
  induction st with
  | nil => simp [keysOf] at hmem
  | cons x xs ih =>
    rw [keysOf_cons] at hst hmem
    obtain ⟨hnm, hnd⟩ := List.nodup_cons.mp hst
    by_cases hxr : x.text = r.text
    · have hb : (x.text == r.text) = true := by simp [hxr]
      show (if x.text == r.text then r :: xs else x :: putRecent xs r) = _
      rw [hb, if_pos rfl, List.map_cons, if_pos hxr]
      have hmap : ∀ y ∈ xs, (if y.text = r.text then r else y) = y := by
        intro y hy
        rw [if_neg]
        intro hyr
        exact hnm (hxr ▸ hyr ▸ (mem_keysOf xs y.text).mpr ⟨y, hy, rfl⟩)
      rw [List.map_congr_left hmap]
      simp
    · have hb : (x.text == r.text) = false := by simp [hxr]
      have hmem' : r.text ∈ keysOf xs := by
        rcases List.mem_cons.mp hmem with h | h
        · exact absurd h.symm hxr
        · exact h
      show (if x.text == r.text then r :: xs else x :: putRecent xs r) = _
      rw [hb]
      show x :: putRecent xs r = _
      rw [List.map_cons, if_neg hxr, ih hnd hmem']

theorem mem_putRecent_of_ne (st : RecentTable) (r x : RecentRec)
    (hx : x ∈ st) (hne : ¬x.text = r.text) : x ∈ putRecent st r := by
  induction st with
  | nil => simp at hx
  | cons y ys ih =>
    by_cases hyr : y.text = r.text
    · have hb : (y.text == r.text) = true := by simp [hyr]
      show x ∈ (if y.text == r.text then r :: ys else y :: putRecent ys r)
      rw [hb, if_pos rfl]
      rcases List.mem_cons.mp hx with rfl | hx
      · exact absurd hyr hne
      · exact List.mem_cons_of_mem _ hx
    · have hb : (y.text == r.text) = false := by simp [hyr]
      show x ∈ (if y.text == r.text then r :: ys else y :: putRecent ys r)
      rw [hb]
      show x ∈ y :: putRecent ys r
      rcases List.mem_cons.mp hx with rfl | hx
      · exact List.mem_cons_self _ _
      · exact List.mem_cons_of_mem _ (ih hx)

/-- C5: when the record for `task` exists and is pinned,
`updateRecentOrderForNewTask` only refreshes that record's `lastUsed`:
the resulting table is the original one with the `task` record replaced
by a copy whose `lastUsed` is `now` (so its `order`, `pinned`, `tags`
and position are unchanged), and every other record is untouched. -/
theorem newTask_existing_pinned_frame (now : Nat)
    (tagsMap : String → Option (List String)) (st : RecentTable) (task : String)
    (e : RecentRec) (hst : (keysOf st).Nodup)
    (hfind : findByText st task = some e) (hpin : e.pinned = true) :
    updateRecentOrderForNewTask now tagsMap st task =
      st.map (fun x => if x.text = task then { e with lastUsed := now } else x) := by
  have hetext : e.text = task := (findByText_eq_some st task e hfind).2
  have hemem : e ∈ st := (findByText_eq_some st task e hfind).1
  unfold updateRecentOrderForNewTask
  rw [hfind]
  simp only [hpin, if_true]
  rw [putRecent_replace st _ hst
    (by exact (mem_keysOf st e.text).mpr ⟨e, hemem, rfl⟩)]
  rw [show ({ e with lastUsed := now } : RecentRec).text = task from hetext]

/-- C5 witness: the theorem applied to a concrete two-record table. -/
theorem newTask_existing_pinned_frame_witness :
    ((keysOf [sampleP, sampleU]).Nodup ∧
      findByText [sampleP, sampleU] "P" = some sampleP ∧ sampleP.pinned = true) ∧
    updateRecentOrderForNewTask 9 sampleTagsMap [sampleP, sampleU] "P" =
      [sampleP, sampleU].map
        (fun x => if x.text = "P" then { sampleP with lastUsed := 9 } else x) :=
  ⟨⟨by decide, by decide, by decide⟩,
    newTask_existing_pinned_frame 9 sampleTagsMap [sampleP, sampleU] "P" sampleP
      (by decide) (by decide) (by decide)⟩

/-- C6: `seedPinnedDefaults` is idempotent: a second call (at any later
time) after the first one returns the state unchanged, because the first
call leaves the seed flag set, so record count and table contents agree
with a single call. -/
theorem seedPinnedDefaults_idempotent (now1 now2 : Nat) (s : SeedState) :
    seedPinnedDefaults now2 (seedPinnedDefaults now1 s) = seedPinnedDefaults now1 s := by
  unfold seedPinnedDefaults
  by_cases h : s.seeded
  · simp [h]
  · simp [h]

/-- C7: `withStore` rejects whenever the transaction aborts or errors, or
the request issued by the callback errors (which, being unhandled on the
request, aborts the transaction); the failure is returned to the caller
as an error result, never swallowed. -/
theorem withStore_propagates_failure {α : Type} (res : CallbackResult α)
    (ext : Option String) (h : ext ≠ none ∨ requestFailed res = true) :
    ∃ e, withStore res ext = Except.error e := by
  cases ext with
  | some e => exact ⟨e, rfl⟩
  | none =>
    rcases h with h | h
    · exact absurd rfl h
    · cases res with
      | plain v => simp [requestFailed] at h
      | request outcome =>
        cases outcome with
        | ok v => simp [requestFailed] at h
        | error e => exact ⟨e, rfl⟩

/-- C7 witness: a request that errors inside an otherwise healthy
transaction is reported as a rejection. -/
theorem withStore_propagates_failure_witness :
    (((none : Option String) ≠ none) ∨
        requestFailed (CallbackResult.request (Except.error "fail") : CallbackResult Nat) = true) ∧
    ∃ e, withStore (CallbackResult.request (Except.error "fail") : CallbackResult Nat) none =
      Except.error e :=
  ⟨Or.inr (by decide),
    withStore_propagates_failure (CallbackResult.request (Except.error "fail")) none
      (Or.inr (by decide))⟩

/-- C9: `deleteRecent` and `deleteActivityByEnd` return `false` and leave
the store unchanged on a falsy key (`null`/`undefined` or the empty
string), and on a truthy key delete exactly that key and return `true`. -/
theorem delete_falsy_noop (rst : RecentTable) (ast : ActivityTable) (s : String)
    (hs : ¬s = "") :
    deleteRecent rst none = (false, rst) ∧
    deleteRecent rst (some "") = (false, rst) ∧
    deleteActivityByEnd ast none = (false, ast) ∧
    deleteActivityByEnd ast (some "") = (false, ast) ∧
    (deleteRecent rst (some s)).1 = true ∧
    (∀ r ∈ rst, ¬r.text = s → r ∈ (deleteRecent rst (some s)).2) ∧
    (∀ r ∈ (deleteRecent rst (some s)).2, r ∈ rst ∧ ¬r.text = s) ∧
    (deleteActivityByEnd ast (some s)).1 = true ∧
    (∀ a ∈ ast, ¬a.endTime = s → a ∈ (deleteActivityByEnd ast (some s)).2) ∧
    (∀ a ∈ (deleteActivityByEnd ast (some s)).2, a ∈ ast ∧ ¬a.endTime = s) := by
  have hsb : (s == "") = false := by simp [hs]
  refine ⟨rfl, by simp [deleteRecent], rfl, by simp [deleteActivityByEnd], ?_, ?_, ?_, ?_, ?_, ?_⟩
  · simp [deleteRecent, hsb]
  · intro r hr hne
    simp [deleteRecent, hsb, deleteByText, List.mem_filter, hr, hne]
  · intro r hr
    simp only [deleteRecent, hsb, Bool.false_eq_true, if_false, deleteByText] at hr
    have := List.mem_filter.mp hr
    simpa using this
  · simp [deleteActivityByEnd, hsb]
  · intro a ha hne
    simp [deleteActivityByEnd, hsb, List.mem_filter, ha, hne]
  · intro a ha
    simp only [deleteActivityByEnd, hsb, Bool.false_eq_true, if_false] at ha
    have := List.mem_filter.mp ha
    simpa using this

/-- C9 witness: the theorem applied to singleton stores and the key of
the recent record. -/
theorem delete_falsy_noop_witness :
    (¬"U" = "") ∧
    deleteRecent [sampleU] none = (false, [sampleU]) ∧
    (deleteRecent [sampleU] (some "U")).1 = true :=
  ⟨by decide,
    (delete_falsy_noop [sampleU] [sampleAct1] "U" (by decide)).1,
    (delete_falsy_noop [sampleU] [sampleAct1] "U" (by decide)).2.2.2.2.1⟩

/-- C3 counterexample: `upsertRecent` does not preserve fields absent
from the overrides: re-upserting the record for `"A"` (which carries
`order := some 5` and `tags := some ["t"]`) with override
`pinned := true` writes a record whose `order` and `tags` are gone. -/
theorem upsertRecent_drops_fields_cex :
    upsertRecent 1 [cexRecA] "A" { pinned := some true } = [cexRecAafter] ∧
    cexRecAafter.pinned = true ∧ cexRecAafter.text = "A" ∧
    cexRecAafter.order ≠ cexRecA.order ∧ cexRecAafter.tags ≠ cexRecA.tags := by
  refine ⟨by decide, by decide, by decide, by decide, by decide⟩

/-- C3 (amended): `upsertRecent` writes exactly the merge of
`{text, pinned: existing pinned or false, lastUsed: now}` with the
overrides: the existing record's `pinned` flag is preserved when the
overrides do not set it, but fields not present in the overrides (such
as `order` and `tags`) are reset to absent rather than preserved; all
other records are untouched. -/
theorem upsertRecent_merge_spec (now : Nat) (st : RecentTable) (text : String)
    (opts : UpsertOpts) (e : RecentRec)
    (hfind : findByText st text = some e) (hnp : opts.pinned = none) :
    findByText (upsertRecent now st text opts) text =
      some { text := text, pinned := e.pinned, lastUsed := opts.lastUsed.getD now,
             order := opts.order.getD none, tags := opts.tags.getD none } ∧
    ∀ x ∈ st, ¬x.text = text → x ∈ upsertRecent now st text opts := by
  unfold upsertRecent
  rw [hfind, hnp]
  constructor
  · rw [findByText_putRecent]
    simp
  · intro x hx hne
    exact mem_putRecent_of_ne st _ x hx hne

/-- C3 witness: the amended theorem applied to the counterexample record
with empty overrides (`pinned` not set): the written record keeps the
`pinned` flag but has `order` and `tags` absent. -/
theorem upsertRecent_merge_spec_witness :
    (findByText [cexRecA] "A" = some cexRecA) ∧
    findByText (upsertRecent 7 [cexRecA] "A" {}) "A" =
      some { text := "A", pinned := cexRecA.pinned, lastUsed := 7,
             order := none, tags := none } :=
  ⟨by decide,
    (upsertRecent_merge_spec 7 [cexRecA] "A" {} cexRecA (by decide) rfl).1⟩

theorem foldl_deleteByText_sublist (ds : List RecentRec) (st : RecentTable) :
    (ds.foldl (fun acc r => deleteByText acc r.text) st).Sublist st := by
  induction ds generalizing st with
  | nil => exact List.Sublist.refl st
  | cons d ds ih =>
    rw [List.foldl_cons]
    exact (ih (deleteByText st d.text)).trans (List.filter_sublist st)

theorem lastUsedDesc_trans : ∀ a b c : RecentRec,
    lastUsedDesc a b = true → lastUsedDesc b c = true → lastUsedDesc a c = true := by
  intro a b c
  simp only [lastUsedDesc, decide_eq_true_eq]
  omega

theorem lastUsedDesc_total : ∀ a b : RecentRec,
    (lastUsedDesc a b || lastUsedDesc b a) = true := by
  intro a b
  simp only [lastUsedDesc, Bool.or_eq_true, decide_eq_true_eq]
  omega

/-- C4: `trimRecentUnpinned` deletes exactly the unpinned records beyond
position `keep` of the unpinned list sorted by `lastUsed` descending: no
pinned record is removed, every surviving record is one of the original
records (hence its `order` is unchanged), the surviving unpinned records
are exactly the first `keep` of the sorted unpinned list (the
most-recently-used ones, as the final conjunct states), and exactly
`min u keep` unpinned records survive. -/
theorem trimRecentUnpinned_spec (st : RecentTable) (keep : Nat)
    (hst : (keysOf st).Nodup) :
    (∀ r ∈ st, r.pinned = true → r ∈ trimRecentUnpinned st keep) ∧
    (∀ r ∈ trimRecentUnpinned st keep, r ∈ st) ∧
    (∀ r, r.pinned = false →
      (r ∈ trimRecentUnpinned st keep ↔
        r ∈ (stableSort lastUsedDesc (st.filter (fun x => !x.pinned))).take keep)) ∧
    (trimRecentUnpinned st keep).countP (fun r => !r.pinned) =
      min (st.countP (fun r => !r.pinned)) keep ∧
    (∀ r ∈ (stableSort lastUsedDesc (st.filter (fun x => !x.pinned))).take keep,
      ∀ d ∈ (stableSort lastUsedDesc (st.filter (fun x => !x.pinned))).drop keep,
        d.lastUsed ≤ r.lastUsed) := by
  set U := stableSort lastUsedDesc (st.filter (fun x => !x.pinned)) with hU
  have hulen : U.length = st.countP (fun r => !r.pinned) := by
    rw [hU, length_stableSort, List.countP_eq_length_filter]
  have hmemU : ∀ x, x ∈ U ↔ x ∈ st ∧ x.pinned = false := by
    intro x
    rw [hU, mem_stableSort, List.mem_filter]
    simp
  have hndU : (keysOf U).Nodup := nodup_keysOf_stableSort_filter _ _ st hst
  have hpair : ∀ r ∈ U.take keep, ∀ d ∈ U.drop keep, d.lastUsed ≤ r.lastUsed := by
    have hsplit : U.Pairwise (fun x y => lastUsedDesc x y = true) :=
      sorted_stableSort lastUsedDesc lastUsedDesc_trans lastUsedDesc_total _
    rw [← List.take_append_drop keep U, List.pairwise_append] at hsplit
    intro r hr d hd
    have := hsplit.2.2 r hr d hd
    simpa [lastUsedDesc] using this
  have hT : trimRecentUnpinned st keep =
      if U.length ≤ keep then st
      else (U.drop keep).foldl (fun acc r => deleteByText acc r.text) st := by
    rw [hU]
    rfl
  by_cases hle : U.length ≤ keep
  · rw [hT, if_pos hle]
    have htake : U.take keep = U := List.take_of_length_le hle
    refine ⟨fun r hr _ => hr, fun r hr => hr, ?_, ?_, hpair⟩
    · intro r hup
      rw [htake, hmemU]
      exact ⟨fun h => ⟨h, hup⟩, fun h => h.1⟩
    · rw [Nat.min_eq_left (hulen ▸ hle)]
  · rw [hT, if_neg hle]
    set T := (U.drop keep).foldl (fun acc r => deleteByText acc r.text) st with hTdef
    have hmemT : ∀ x, x ∈ T ↔ x ∈ st ∧ ∀ d ∈ U.drop keep, ¬x.text = d.text := by
      intro x
      rw [hTdef]
      exact mem_foldl_deleteByText _ st x
    have hdisj : (keysOf (U.take keep)).Disjoint (keysOf (U.drop keep)) := by
      have happ : keysOf U = keysOf (U.take keep) ++ keysOf (U.drop keep) := by
        show U.map (·.text) = (U.take keep).map (·.text) ++ (U.drop keep).map (·.text)
        rw [← List.map_append, List.take_append_drop]
      exact List.disjoint_of_nodup_append (happ ▸ hndU)
    have hiff : ∀ r, r.pinned = false → (r ∈ T ↔ r ∈ U.take keep) := by
      intro r hup
      rw [hmemT]
      constructor
      · rintro ⟨hrst, hall⟩
        have hrU : r ∈ U := (hmemU r).mpr ⟨hrst, hup⟩
        rw [← List.take_append_drop keep U, List.mem_append] at hrU
        rcases hrU with h | h
        · exact h
        · exact absurd rfl (hall r h)
      · intro hrtake
        have hrU : r ∈ U := List.mem_of_mem_take hrtake
        refine ⟨((hmemU r).mp hrU).1, fun d hd hrd => ?_⟩
        have hdU : d ∈ U := List.mem_of_mem_drop hd
        have hrdeq : r = d := text_inj_of_nodup st hst r ((hmemU r).mp hrU).1 d
          ((hmemU d).mp hdU).1 hrd
        subst hrdeq
        exact hdisj ((mem_keysOf _ _).mpr ⟨r, hrtake, rfl⟩)
          ((mem_keysOf _ _).mpr ⟨r, hd, rfl⟩)
    refine ⟨?_, fun r hr => ((hmemT r).mp hr).1, hiff, ?_, hpair⟩
    · intro r hr hpin
      rw [hmemT]
      refine ⟨hr, fun d hd hrd => ?_⟩
      have hdU := (hmemU d).mp (List.mem_of_mem_drop hd)
      have hrdeq : r = d := text_inj_of_nodup st hst r hr d hdU.1 hrd
      rw [hrdeq, hdU.2] at hpin
      exact Bool.false_ne_true hpin
    · have hsubT : T.Sublist st := hTdef ▸ foldl_deleteByText_sublist _ st
      have hndT : (keysOf T).Nodup :=
        (hsubT.map (·.text)).nodup (show (st.map (·.text)).Nodup from hst)
      have hndA : (keysOf (T.filter (fun r => !r.pinned))).Nodup :=
        nodup_keysOf_filter _ _ hndT
      have hndB : (keysOf (U.take keep)).Nodup :=
        ((List.take_sublist keep U).map (·.text)).nodup
          (show (U.map (·.text)).Nodup from hndU)
      have hmemAB : ∀ x, x ∈ T.filter (fun r => !r.pinned) ↔ x ∈ U.take keep := by
        intro x
        rw [List.mem_filter]
        constructor
        · rintro ⟨hxT, hxp⟩
          exact (hiff x (by simpa using hxp)).mp hxT
        · intro hx
          have hup : x.pinned = false :=
            ((hmemU x).mp (List.mem_of_mem_take hx)).2
          exact ⟨(hiff x hup).mpr hx, by simp [hup]⟩
      have hperm : List.Perm (T.filter (fun r => !r.pinned)) (U.take keep) :=
        (List.perm_ext_iff_of_nodup (List.Nodup.of_map _ hndA)
          (List.Nodup.of_map _ hndB)).mpr hmemAB
      rw [List.countP_eq_length_filter, hperm.length_eq, List.length_take, ← hulen,
        Nat.min_comm]

/-- C4 witness: the theorem applied to one pinned and two unpinned
records with retention one. -/
theorem trimRecentUnpinned_spec_witness :
    (keysOf [sampleP, sampleU, sampleV]).Nodup ∧
    (trimRecentUnpinned [sampleP, sampleU, sampleV] 1).countP (fun r => !r.pinned) =
      min ([sampleP, sampleU, sampleV].countP (fun r => !r.pinned)) 1 :=
  ⟨by decide,
    (trimRecentUnpinned_spec [sampleP, sampleU, sampleV] 1 (by decide)).2.2.2.1⟩

theorem endTimeLe_trans : ∀ a b c : Activity,
    endTimeLe a b = true → endTimeLe b c = true → endTimeLe a c = true := by
  intro a b c
  exact charListLe_trans a.endTime.data b.endTime.data c.endTime.data

theorem endTimeLe_total : ∀ a b : Activity,
    (endTimeLe a b || endTimeLe b a) = true := by
  intro a b
  exact charListLe_total a.endTime.data b.endTime.data

theorem getLast?_pairwise_max {α : Type} (le : α → α → Bool) (l : List α)
    (hl : l.Pairwise (fun x y => le x y = true)) (a : α) (ha : l.getLast? = some a) :
    ∀ b ∈ l, le b a = true ∨ b = a := by
  obtain ⟨ys, rfl⟩ := List.getLast?_eq_some_iff.mp ha
  rw [List.pairwise_append] at hl
  intro b hb
  rcases List.mem_append.mp hb with h | h
  · exact Or.inl (hl.2.2 b h a (List.mem_singleton.mpr rfl))
  · exact Or.inr (List.mem_singleton.mp h)

/-- C8: `getLastActivity` returns `null` on an empty store and on a
non-empty store returns a stored record whose `endTime` is maximal in
the string order used by the index (for the fixed-width UTC ISO-8601
strings the app writes, this string order is the chronological order);
in particular, on a two-record store whose first record ends strictly
earlier it returns the second record. -/
theorem getLastActivity_spec (st : ActivityTable) :
    (st = [] → getLastActivity st = none) ∧
    (st ≠ [] → ∃ a, getLastActivity st = some a ∧ a ∈ st ∧
      ∀ b ∈ st, strLe b.endTime a.endTime = true) ∧
    (∀ a1 a2 : Activity, strLe a2.endTime a1.endTime = false →
      getLastActivity [a1, a2] = some a2) := by
  have hmain : ∀ l : ActivityTable, l ≠ [] → ∃ a, getLastActivity l = some a ∧ a ∈ l ∧
      ∀ b ∈ l, strLe b.endTime a.endTime = true := by
    intro l hne
    have hsne : stableSort endTimeLe l ≠ [] := by
      intro h
      exact hne (List.length_eq_zero.mp (by rw [← length_stableSort endTimeLe l, h]; rfl))
    obtain ⟨a, ha⟩ := Option.isSome_iff_exists.mp (List.getLast?_isSome.mpr hsne)
    refine ⟨a, ha, ?_, ?_⟩
    · have : a ∈ stableSort endTimeLe l := by
        obtain ⟨ys, hys⟩ := List.getLast?_eq_some_iff.mp ha
        rw [hys]
        exact List.mem_append.mpr (Or.inr (List.mem_singleton.mpr rfl))
      exact (mem_stableSort endTimeLe l a).mp this
    · intro b hb
      have hsorted := sorted_stableSort endTimeLe endTimeLe_trans endTimeLe_total l
      have hb' : b ∈ stableSort endTimeLe l := (mem_stableSort endTimeLe l b).mpr hb
      rcases getLast?_pairwise_max endTimeLe _ hsorted a ha b hb' with h | rfl
      · exact h
      · exact charListLe_refl _
  refine ⟨fun h => by rw [h]; rfl, hmain st, ?_⟩
  intro a1 a2 hlt
  obtain ⟨a, ha, hmem, hmax⟩ := hmain [a1, a2] (by simp)
  have h2 : strLe a2.endTime a.endTime = true := hmax a2 (by simp)
  rcases List.mem_cons.mp hmem with rfl | hmem
  · rw [hlt] at h2
    exact absurd h2 (by simp)
  · rw [List.mem_singleton.mp hmem] at ha
    exact ha

/-- C8 witness: the theorem applied to a two-record store, listed in
reverse chronological order. -/
theorem getLastActivity_spec_witness :
    (strLe sampleAct1.endTime sampleAct2.endTime = false → False) ∧
    (([sampleAct2, sampleAct1] : ActivityTable) ≠ []) ∧
    (∃ a, getLastActivity [sampleAct2, sampleAct1] = some a ∧
      a ∈ [sampleAct2, sampleAct1] ∧
      ∀ b ∈ [sampleAct2, sampleAct1], strLe b.endTime a.endTime = true) :=
  ⟨by decide, by decide,
    (getLastActivity_spec [sampleAct2, sampleAct1]).2.1 (by decide)⟩

theorem keysOf_append (A B : RecentTable) : keysOf (A ++ B) = keysOf A ++ keysOf B :=
  List.map_append _ A B

/-- Shape of a table after the shared reorder-and-persist step of the
ranking operations: the records of `st` are rewritten as the
concatenation `A ++ x :: B` with dense orders assigned by position.
`A` and `B` are the two sorted partitions (both excluding the target
key `task`), and `x` is the target record placed between them. -/
theorem putAll_reorder_spec (st : RecentTable) (task : String) (A B : List RecentRec)
    (x : RecentRec)
    (hst : (keysOf st).Nodup)
    (hxtext : x.text = task)
    (hAkeys : (keysOf A).Nodup) (hBkeys : (keysOf B).Nodup)
    (hAst : ∀ r ∈ A, r ∈ st) (hBst : ∀ r ∈ B, r ∈ st)
    (hAtask : ∀ r ∈ A, ¬r.text = task) (hBtask : ∀ r ∈ B, ¬r.text = task)
    (hABne : ∀ r ∈ A, r ∉ B)
    (hcover : ∀ r ∈ st, r ∈ A ∨ r ∈ B ∨ r.text = task) :
    ({ x with order := some A.length } ∈ putAll st (assignOrders (A ++ x :: B))) ∧
    (∀ r ∈ putAll st (assignOrders (A ++ x :: B)),
      (∃ z ∈ A, ∃ i, i < A.length ∧ r = { z with order := some i }) ∨
      r = { x with order := some A.length } ∨
      (∃ z ∈ B, ∃ i, A.length < i ∧ r = { z with order := some i })) ∧
    (∀ z ∈ A, ∃ i, i < A.length ∧
      { z with order := some i } ∈ putAll st (assignOrders (A ++ x :: B))) ∧
    (∀ z ∈ B, ∃ i, A.length < i ∧
      { z with order := some i } ∈ putAll st (assignOrders (A ++ x :: B))) ∧
    List.Perm ((putAll st (assignOrders (A ++ x :: B))).map (·.order))
      ((List.range (putAll st (assignOrders (A ++ x :: B))).length).map some) := by
  have hkeysSeq : keysOf (A ++ x :: B) = keysOf A ++ x.text :: keysOf B := by
    rw [keysOf_append, keysOf_cons]
  have htaskB : task ∉ keysOf B := by
    intro h
    obtain ⟨s, hs, hst'⟩ := (mem_keysOf B task).mp h
    exact hBtask s hs hst'
  have hndSeq : (keysOf (A ++ x :: B)).Nodup := by
    rw [hkeysSeq, List.nodup_append]
    refine ⟨hAkeys, List.nodup_cons.mpr ⟨hxtext ▸ htaskB, hBkeys⟩, ?_⟩
    intro t ht htx
    obtain ⟨r, hr, hrt⟩ := (mem_keysOf A t).mp ht
    rcases List.mem_cons.mp htx with rfl | htB
    · exact hAtask r hr (hrt.symm ▸ hxtext)
    · obtain ⟨s, hs, hst'⟩ := (mem_keysOf B t).mp htB
      have : r = s := text_inj_of_nodup st hst r (hAst r hr) s (hBst s hs)
        (hrt.trans hst'.symm)
      exact hABne r hr (this ▸ hs)
  have hsub : ∀ t ∈ keysOf st, t ∈ keysOf (A ++ x :: B) := by
    intro t ht
    obtain ⟨r, hr, hrt⟩ := (mem_keysOf st t).mp ht
    rw [hkeysSeq]
    rcases hcover r hr with h | h | h
    · exact List.mem_append.mpr (Or.inl ((mem_keysOf A t).mpr ⟨r, h, hrt⟩))
    · exact List.mem_append.mpr (Or.inr (List.mem_cons.mpr
        (Or.inr ((mem_keysOf B t).mpr ⟨r, h, hrt⟩))))
    · exact List.mem_append.mpr (Or.inr (List.mem_cons.mpr
        (Or.inl (hrt ▸ h ▸ hxtext.symm))))
  have hkeysAssign : keysOf (assignOrders (A ++ x :: B)) = keysOf (A ++ x :: B) :=
    keysOf_assignOrdersFrom 0 _
  have hperm : List.Perm (putAll st (assignOrders (A ++ x :: B)))
      (assignOrders (A ++ x :: B)) := by
    refine putAll_perm st _ hst ?_ ?_
    · rw [hkeysAssign]
      exact hndSeq
    · intro t ht
      rw [hkeysAssign]
      exact hsub t ht
  have hshape : assignOrders (A ++ x :: B) =
      assignOrdersFrom 0 A ++
        ({ x with order := some A.length } :: assignOrdersFrom (A.length + 1) B) := by
    show assignOrdersFrom 0 (A ++ x :: B) = _
    rw [assignOrdersFrom_append, assignOrdersFrom_cons]
    simp
  refine ⟨?_, ?_, ?_, ?_, ?_⟩
  · refine hperm.mem_iff.mpr ?_
    rw [hshape]
    exact List.mem_append.mpr (Or.inr (List.mem_cons.mpr (Or.inl rfl)))
  · intro r hr
    have hr' := hperm.mem_iff.mp hr
    rw [hshape] at hr'
    rcases List.mem_append.mp hr' with h | h
    · obtain ⟨z, hz, i, _, hilt, heq⟩ := of_mem_assignOrdersFrom 0 A r h
      exact Or.inl ⟨z, hz, i, by omega, heq⟩
    · rcases List.mem_cons.mp h with h | h
      · exact Or.inr (Or.inl h)
      · obtain ⟨z, hz, i, hige, hilt, heq⟩ :=
          of_mem_assignOrdersFrom (A.length + 1) B r h
        exact Or.inr (Or.inr ⟨z, hz, i, by omega, heq⟩)
  · intro z hz
    obtain ⟨i, hmem, hige, hilt⟩ := mem_assignOrdersFrom_of_mem 0 A z hz
    refine ⟨i, by omega, hperm.mem_iff.mpr ?_⟩
    rw [hshape]
    exact List.mem_append.mpr (Or.inl hmem)
  · intro z hz
    obtain ⟨i, hmem, hige, hilt⟩ := mem_assignOrdersFrom_of_mem (A.length + 1) B z hz
    refine ⟨i, by omega, hperm.mem_iff.mpr ?_⟩
    rw [hshape]
    exact List.mem_append.mpr (Or.inr (List.mem_cons.mpr (Or.inr hmem)))
  · have hlen : (putAll st (assignOrders (A ++ x :: B))).length =
        (A ++ x :: B).length := by
      rw [hperm.length_eq]
      show (assignOrdersFrom 0 (A ++ x :: B)).length = _
      exact length_assignOrdersFrom 0 _
    have hmap : (assignOrders (A ++ x :: B)).map (·.order) =
        (List.range (A ++ x :: B).length).map some := by
      show (assignOrdersFrom 0 (A ++ x :: B)).map (·.order) = _
      rw [map_order_assignOrdersFrom, List.range_eq_range']
    rw [hlen, ← hmap]
    exact hperm.map (·.order)

/-- C1: for a task with no pinned record, `updateRecentOrderForNewTask`
persists the concatenation of the pinned partition, the fresh record for
the task, and the previously existing unpinned records, with dense
zero-based orders over the whole list: the task record is unpinned with
`order` equal to the pinned count `p`, every pinned record gets an order
below `p`, every other unpinned record gets an order above `p` (and each
previously existing unpinned record survives, with `lastUsed` and `tags`
intact, at such a position), and the assigned orders are exactly
`0, ..., n-1`. -/
theorem newTask_new_or_unpinned_spec (now : Nat)
    (tagsMap : String → Option (List String)) (st : RecentTable) (task : String)
    (hst : (keysOf st).Nodup)
    (hnp : ∀ r ∈ st, r.text = task → r.pinned = false) :
    (∃ r ∈ updateRecentOrderForNewTask now tagsMap st task,
      r.text = task ∧ r.pinned = false ∧
        r.order = some (st.countP (fun s => s.pinned))) ∧
    (∀ r ∈ updateRecentOrderForNewTask now tagsMap st task, r.pinned = true →
      ∃ i, r.order = some i ∧ i < st.countP (fun s => s.pinned)) ∧
    (∀ r ∈ updateRecentOrderForNewTask now tagsMap st task, r.pinned = false →
      ¬r.text = task →
      ∃ i, r.order = some i ∧ st.countP (fun s => s.pinned) < i) ∧
    (∀ r ∈ st, r.pinned = false → ¬r.text = task →
      ∃ r' ∈ updateRecentOrderForNewTask now tagsMap st task,
        r'.text = r.text ∧ r'.pinned = false ∧ r'.lastUsed = r.lastUsed ∧
        r'.tags = r.tags ∧
        ∃ i, r'.order = some i ∧ st.countP (fun s => s.pinned) < i) ∧
    List.Perm ((updateRecentOrderForNewTask now tagsMap st task).map (·.order))
      ((List.range (updateRecentOrderForNewTask now tagsMap st task).length).map some) := by
  obtain ⟨tg, hbranch⟩ : ∃ tg, updateRecentOrderForNewTask now tagsMap st task =
      newTaskUnpinnedReorder now st task tg := by
    cases hfind : findByText st task with
    | none =>
      refine ⟨some ((tagsMap task).getD []), ?_⟩
      unfold updateRecentOrderForNewTask
      rw [hfind]
    | some e =>
      refine ⟨e.tags, ?_⟩
      unfold updateRecentOrderForNewTask
      rw [hfind]
      have hesome := findByText_eq_some st task e hfind
      have hef : e.pinned = false := hnp e hesome.1 hesome.2
      simp [hef]
  rw [hbranch]
  have hTdef : newTaskUnpinnedReorder now st task tg =
      putAll st (assignOrders
        (stableSort orderLe (st.filter (fun r => r.pinned)) ++
          ({ text := task, pinned := false, lastUsed := now, tags := tg,
             order := none } : RecentRec) ::
          stableSort orderLe (st.filter (fun r => !r.pinned && !(r.text == task))))) := rfl
  rw [hTdef]
  set A := stableSort orderLe (st.filter (fun r => r.pinned)) with hA
  set B := stableSort orderLe (st.filter (fun r => !r.pinned && !(r.text == task))) with hB
  set x : RecentRec :=
    { text := task, pinned := false, lastUsed := now, tags := tg, order := none } with hx
  have hAmem : ∀ r, r ∈ A ↔ r ∈ st ∧ r.pinned = true := by
    intro r
    rw [hA, mem_stableSort_filter]
  have hBmem : ∀ r, r ∈ B ↔ r ∈ st ∧ r.pinned = false ∧ ¬r.text = task := by
    intro r
    rw [hB, mem_stableSort_filter]
    simp [and_assoc]
  have hAlen : A.length = st.countP (fun s => s.pinned) := by
    rw [hA, length_stableSort, List.countP_eq_length_filter]
  obtain ⟨h1, h2, h3, h4, h5⟩ :=
    putAll_reorder_spec st task A B x hst rfl
      (nodup_keysOf_stableSort_filter _ _ st hst)
      (nodup_keysOf_stableSort_filter _ _ st hst)
      (fun r hr => ((hAmem r).mp hr).1)
      (fun r hr => ((hBmem r).mp hr).1)
      (fun r hr ht => by
        have hm := (hAmem r).mp hr
        exact Bool.false_ne_true ((hnp r hm.1 ht).symm.trans hm.2))
      (fun r hr => ((hBmem r).mp hr).2.2)
      (fun r hrA hrB => by
        have hm1 := ((hAmem r).mp hrA).2
        have hm2 := ((hBmem r).mp hrB).2.1
        exact Bool.false_ne_true (hm2.symm.trans hm1))
      (fun r hr => by
        by_cases hp : r.pinned = true
        · exact Or.inl ((hAmem r).mpr ⟨hr, hp⟩)
        · have hp' : r.pinned = false := by
            cases hpv : r.pinned
            · rfl
            · exact absurd hpv hp
          by_cases htsk : r.text = task
          · exact Or.inr (Or.inr htsk)
          · exact Or.inr (Or.inl ((hBmem r).mpr ⟨hr, hp', htsk⟩)))
  refine ⟨⟨{ x with order := some A.length }, h1, rfl, rfl, by rw [← hAlen]⟩,
    ?_, ?_, ?_, h5⟩
  · intro r hr hpin
    rcases h2 r hr with ⟨z, hz, i, hi, rfl⟩ | rfl | ⟨z, hz, i, hi, rfl⟩
    · exact ⟨i, rfl, hAlen ▸ hi⟩
    · exact absurd (Bool.false_ne_true hpin) (fun h => h)
    · have hz2 : z.pinned = true := hpin
      have hz3 := ((hBmem z).mp hz).2.1
      exact absurd (hz3.symm.trans hz2) Bool.false_ne_true
  · intro r hr hup htk
    rcases h2 r hr with ⟨z, hz, i, hi, rfl⟩ | rfl | ⟨z, hz, i, hi, rfl⟩
    · have hz2 : z.pinned = false := hup
      have hz3 := ((hAmem z).mp hz).2
      exact absurd (hz2.symm.trans hz3) Bool.false_ne_true
    · exact absurd rfl htk
    · exact ⟨i, rfl, hAlen ▸ hi⟩
  · intro r hr hup htk
    obtain ⟨i, hi, hmem⟩ := h4 r ((hBmem r).mpr ⟨hr, hup, htk⟩)
    exact ⟨{ r with order := some i }, hmem, rfl, hup, rfl, rfl, i, rfl, hAlen ▸ hi⟩

/-- C1 witness: the theorem applied to a table with one pinned and one
unpinned record and a fresh task text. -/
theorem newTask_new_or_unpinned_spec_witness :
    ((keysOf [sampleP, sampleU]).Nodup ∧
      (∀ r ∈ [sampleP, sampleU], r.text = "N" → r.pinned = false)) ∧
    ∃ r ∈ updateRecentOrderForNewTask 5 sampleTagsMap [sampleP, sampleU] "N",
      r.text = "N" ∧ r.pinned = false ∧
        r.order = some ([sampleP, sampleU].countP (fun s => s.pinned)) :=
  ⟨⟨by decide, by decide⟩,
    (newTask_new_or_unpinned_spec 5 sampleTagsMap [sampleP, sampleU] "N"
      (by decide) (by decide)).1⟩

theorem append_singleton_append {α : Type} (A B : List α) (x : α) :
    (A ++ [x]) ++ B = A ++ x :: B := by
  simp

/-- Behaviour of `updateRecentOrderForPinToggle` when the target record
exists: the target is rewritten with the requested pinned state at order
`q` (the number of other pinned records), every other pinned record gets
an order below `q`, every other unpinned record an order above `q`, the
other records keep their pinned state, keys stay unique, the target is
found at the stated record, and the assigned orders are dense. -/
theorem pinToggle_found_spec (now : Nat) (st : RecentTable) (task : String)
    (r0 : RecentRec) (b : Bool) (hst : (keysOf st).Nodup)
    (hfind : findByText st task = some r0) :
    (∃ r ∈ updateRecentOrderForPinToggle now st task b,
      r.text = task ∧ r.pinned = b ∧
      r.order = some (st.countP (fun s => s.pinned && !(s.text == task)))) ∧
    (∀ s ∈ updateRecentOrderForPinToggle now st task b, ¬s.text = task →
      (s.pinned = true → ∃ j, s.order = some j ∧
        j < st.countP (fun s => s.pinned && !(s.text == task))) ∧
      (s.pinned = false → ∃ j, s.order = some j ∧
        st.countP (fun s => s.pinned && !(s.text == task)) < j)) ∧
    (∀ s ∈ st, ¬s.text = task →
      ∃ s' ∈ updateRecentOrderForPinToggle now st task b,
        s'.text = s.text ∧ s'.pinned = s.pinned) ∧
    (keysOf (updateRecentOrderForPinToggle now st task b)).Nodup ∧
    findByText (updateRecentOrderForPinToggle now st task b) task =
      some { r0 with
             pinned := b
             order := some (st.countP (fun s => s.pinned && !(s.text == task))) } ∧
    List.Perm ((updateRecentOrderForPinToggle now st task b).map (·.order))
      ((List.range (updateRecentOrderForPinToggle now st task b).length).map some) := by
  have hr0 := findByText_eq_some st task r0 hfind
  have hTdef : updateRecentOrderForPinToggle now st task b =
      putAll st (assignOrders
        (stableSort orderLe (st.filter (fun r => r.pinned && !(r.text == task))) ++
          ({ r0 with pinned := b } : RecentRec) ::
          stableSort orderLe (st.filter (fun r => !r.pinned && !(r.text == task))))) := by
    unfold updateRecentOrderForPinToggle
    rw [hfind]
    cases b
    · rfl
    · conv_rhs => rw [← append_singleton_append]
      rfl
  rw [hTdef]
  set A := stableSort orderLe (st.filter (fun r => r.pinned && !(r.text == task))) with hA
  set B := stableSort orderLe (st.filter (fun r => !r.pinned && !(r.text == task))) with hB
  set x : RecentRec := { r0 with pinned := b } with hx
  have hAmem : ∀ r, r ∈ A ↔ r ∈ st ∧ r.pinned = true ∧ ¬r.text = task := by
    intro r
    rw [hA, mem_stableSort_filter]
    simp [and_assoc]
  have hBmem : ∀ r, r ∈ B ↔ r ∈ st ∧ r.pinned = false ∧ ¬r.text = task := by
    intro r
    rw [hB, mem_stableSort_filter]
    simp [and_assoc]
  have hq : A.length = st.countP (fun s => s.pinned && !(s.text == task)) := by
    rw [hA, length_stableSort, List.countP_eq_length_filter]
  obtain ⟨h1, h2, h3, h4, h5⟩ :=
    putAll_reorder_spec st task A B x hst hr0.2
      (nodup_keysOf_stableSort_filter _ _ st hst)
      (nodup_keysOf_stableSort_filter _ _ st hst)
      (fun r hr => ((hAmem r).mp hr).1)
      (fun r hr => ((hBmem r).mp hr).1)
      (fun r hr => ((hAmem r).mp hr).2.2)
      (fun r hr => ((hBmem r).mp hr).2.2)
      (fun r hrA hrB => by
        have hm1 := ((hAmem r).mp hrA).2.1
        have hm2 := ((hBmem r).mp hrB).2.1
        exact Bool.false_ne_true (hm2.symm.trans hm1))
      (fun r hr => by
        by_cases htsk : r.text = task
        · exact Or.inr (Or.inr htsk)
        · by_cases hp : r.pinned = true
          · exact Or.inl ((hAmem r).mpr ⟨hr, hp, htsk⟩)
          · have hp' : r.pinned = false := by
              cases hpv : r.pinned
              · rfl
              · exact absurd hpv hp
            exact Or.inr (Or.inl ((hBmem r).mpr ⟨hr, hp', htsk⟩)))
  have hnd : (keysOf (putAll st (assignOrders (A ++ x :: B)))).Nodup :=
    nodup_keysOf_putAll st _ hst
  refine ⟨⟨{ x with order := some A.length }, h1, hr0.2, rfl, by rw [← hq]⟩,
    ?_, ?_, hnd, ?_, h5⟩
  · intro s hs hsk
    constructor
    · intro hpin
      rcases h2 s hs with ⟨z, hz, i, hi, rfl⟩ | rfl | ⟨z, hz, i, hi, rfl⟩
      · exact ⟨i, rfl, hq ▸ hi⟩
      · exact absurd hr0.2 hsk
      · have hz2 : z.pinned = true := hpin
        have hz3 := ((hBmem z).mp hz).2.1
        exact absurd (hz3.symm.trans hz2) Bool.false_ne_true
    · intro hup
      rcases h2 s hs with ⟨z, hz, i, hi, rfl⟩ | rfl | ⟨z, hz, i, hi, rfl⟩
      · have hz2 : z.pinned = false := hup
        have hz3 := ((hAmem z).mp hz).2.1
        exact absurd (hz2.symm.trans hz3) Bool.false_ne_true
      · exact absurd hr0.2 hsk
      · exact ⟨i, rfl, hq ▸ hi⟩
  · intro s hs hsk
    by_cases hp : s.pinned = true
    · obtain ⟨i, hi, hmem⟩ := h3 s ((hAmem s).mpr ⟨hs, hp, hsk⟩)
      exact ⟨{ s with order := some i }, hmem, rfl, rfl⟩
    · have hp' : s.pinned = false := by
        cases hpv : s.pinned
        · rfl
        · exact absurd hpv hp
      obtain ⟨i, hi, hmem⟩ := h4 s ((hBmem s).mpr ⟨hs, hp', hsk⟩)
      exact ⟨{ s with order := some i }, hmem, rfl, rfl⟩
  · have hmem := (mem_iff_findByText _ { x with order := some A.length } hnd).mp h1
    rw [show ({ x with order := some A.length } : RecentRec).text = task from hr0.2]
      at hmem
    rw [← hq, hr0.2]
    exact hmem

/-- C2: for an existing record, pinning moves it to the end of the
pinned partition (its order equals the number of other pinned records
`q`; other pinned records sit below `q`, all unpinned ones above `q`)
and unpinning moves it to the front of the unpinned partition (order
`q`, every pinned record below `q`, every other unpinned record above);
in both cases the orders assigned over the concatenated list are dense
zero-based indices; and toggling pin then unpin leaves the record at the
front of the unpinned partition. -/
theorem pinToggle_spec (now1 now2 : Nat) (st : RecentTable) (task : String)
    (r0 : RecentRec) (hst : (keysOf st).Nodup)
    (hfind : findByText st task = some r0) :
    (∃ r ∈ updateRecentOrderForPinToggle now1 st task true,
      r.text = task ∧ r.pinned = true ∧
      r.order = some (st.countP (fun s => s.pinned && !(s.text == task))) ∧
      (∀ s ∈ updateRecentOrderForPinToggle now1 st task true, s.pinned = true →
        ¬s.text = task → ∃ j, s.order = some j ∧
          j < st.countP (fun s => s.pinned && !(s.text == task))) ∧
      (∀ s ∈ updateRecentOrderForPinToggle now1 st task true, s.pinned = false →
        ∃ j, s.order = some j ∧
          st.countP (fun s => s.pinned && !(s.text == task)) < j)) ∧
    List.Perm ((updateRecentOrderForPinToggle now1 st task true).map (·.order))
      ((List.range (updateRecentOrderForPinToggle now1 st task true).length).map some) ∧
    (∃ r ∈ updateRecentOrderForPinToggle now1 st task false,
      r.text = task ∧ r.pinned = false ∧
      r.order = some (st.countP (fun s => s.pinned && !(s.text == task))) ∧
      (∀ s ∈ updateRecentOrderForPinToggle now1 st task false, s.pinned = true →
        ∃ j, s.order = some j ∧
          j < st.countP (fun s => s.pinned && !(s.text == task))) ∧
      (∀ s ∈ updateRecentOrderForPinToggle now1 st task false, s.pinned = false →
        ¬s.text = task → ∃ j, s.order = some j ∧
          st.countP (fun s => s.pinned && !(s.text == task)) < j)) ∧
    List.Perm ((updateRecentOrderForPinToggle now1 st task false).map (·.order))
      ((List.range (updateRecentOrderForPinToggle now1 st task false).length).map some) ∧
    (∃ r ∈ updateRecentOrderForPinToggle now2
        (updateRecentOrderForPinToggle now1 st task true) task false,
      r.text = task ∧ r.pinned = false ∧ ∃ i, r.order = some i ∧
      (∀ s ∈ updateRecentOrderForPinToggle now2
          (updateRecentOrderForPinToggle now1 st task true) task false,
        s.pinned = true → ∃ j, s.order = some j ∧ j < i) ∧
      (∀ s ∈ updateRecentOrderForPinToggle now2
          (updateRecentOrderForPinToggle now1 st task true) task false,
        s.pinned = false → ¬s.text = task → ∃ j, s.order = some j ∧ i < j)) := by
  obtain ⟨hA1, hA2, hA3, hA4, hA5, hA6⟩ :=
    pinToggle_found_spec now1 st task r0 true hst hfind
  obtain ⟨hB1, hB2, hB3, hB4, hB5, hB6⟩ :=
    pinToggle_found_spec now1 st task r0 false hst hfind
  obtain ⟨hC1, hC2, hC3, hC4, hC5, hC6⟩ :=
    pinToggle_found_spec now2 (updateRecentOrderForPinToggle now1 st task true)
      task _ false hA4 hA5
  refine ⟨?_, hA6, ?_, hB6, ?_⟩
  · obtain ⟨r, hr, ht, hp, ho⟩ := hA1
    refine ⟨r, hr, ht, hp, ho, ?_, ?_⟩
    · intro s hs hspin hsk
      exact (hA2 s hs hsk).1 hspin
    · intro s hs hup
      have hsk : ¬s.text = task := by
        intro h
        have hsfind := (mem_iff_findByText _ s hA4).mp hs
        rw [h, hA5] at hsfind
        obtain rfl := Option.some.inj hsfind
        simp at hup
      exact (hA2 s hs hsk).2 hup
  · obtain ⟨r, hr, ht, hp, ho⟩ := hB1
    refine ⟨r, hr, ht, hp, ho, ?_, ?_⟩
    · intro s hs hspin
      have hsk : ¬s.text = task := by
        intro h
        have hsfind := (mem_iff_findByText _ s hB4).mp hs
        rw [h, hB5] at hsfind
        obtain rfl := Option.some.inj hsfind
        simp at hspin
      exact (hB2 s hs hsk).1 hspin
    · intro s hs hup hsk
      exact (hB2 s hs hsk).2 hup
  · obtain ⟨r, hr, ht, hp, ho⟩ := hC1
    refine ⟨r, hr, ht, hp, _, ho, ?_, ?_⟩
    · intro s hs hspin
      have hsk : ¬s.text = task := by
        intro h
        have hsfind := (mem_iff_findByText _ s hC4).mp hs
        rw [h, hC5] at hsfind
        obtain rfl := Option.some.inj hsfind
        simp at hspin
      exact (hC2 s hs hsk).1 hspin
    · intro s hs hup hsk
      exact (hC2 s hs hsk).2 hup

/-- C2 witness: the theorem applied to a table of two unpinned records,
toggling the second one. -/
theorem pinToggle_spec_witness :
    ((keysOf [sampleU, sampleV]).Nodup ∧
      findByText [sampleU, sampleV] "V" = some sampleV) ∧
    ∃ r ∈ updateRecentOrderForPinToggle 7 [sampleU, sampleV] "V" true,
      r.text = "V" ∧ r.pinned = true ∧
      r.order = some ([sampleU, sampleV].countP (fun s => s.pinned && !(s.text == "V"))) ∧
      (∀ s ∈ updateRecentOrderForPinToggle 7 [sampleU, sampleV] "V" true,
        s.pinned = true → ¬s.text = "V" → ∃ j, s.order = some j ∧
          j < [sampleU, sampleV].countP (fun s => s.pinned && !(s.text == "V"))) ∧
      (∀ s ∈ updateRecentOrderForPinToggle 7 [sampleU, sampleV] "V" true,
        s.pinned = false → ∃ j, s.order = some j ∧
          [sampleU, sampleV].countP (fun s => s.pinned && !(s.text == "V")) < j) :=
  ⟨⟨by decide, by decide⟩,
    (pinToggle_spec 7 8 [sampleU, sampleV] "V" sampleV (by decide) (by decide)).1⟩

theorem mem_replaceAllChar_of_ne (s : List Char) (c x : Char) (r : List Char)
    (hx : x ∈ s) (hne : ¬x = c) : x ∈ replaceAllChar s c r := by
  induction s with
  | nil => simp at hx
  | cons y ys ih =>
    show x ∈ (if y = c then r else [y]) ++ replaceAllChar ys c r
    rcases List.mem_cons.mp hx with rfl | hx
    · rw [if_neg hne]
      exact List.mem_append.mpr (Or.inl (List.mem_singleton.mpr rfl))
    · exact List.mem_append.mpr (Or.inr (ih hx))

theorem entity_infix_replace (s : List Char) (hx : '\'' ∈ s) :
    List.IsInfix ("&#039;".data) (replaceAllChar s '\'' ("&#039;".data)) := by
  induction s with
  | nil => simp at hx
  | cons y ys ih =>
    show List.IsInfix _
      ((if y = '\'' then ("&#039;".data) else [y]) ++ replaceAllChar ys '\'' ("&#039;".data))
    by_cases hy : y = '\''
    · rw [if_pos hy]
      exact ⟨[], replaceAllChar ys '\'' ("&#039;".data), by simp⟩
    · rw [if_neg hy]
      have hx' : '\'' ∈ ys := by
        rcases List.mem_cons.mp hx with h | h
        · exact absurd h.symm hy
        · exact h
      obtain ⟨pre, suf, heq⟩ := ih hx'
      exact ⟨y :: pre, suf, by simp [heq]⟩

theorem entity_infix_escape (s : List Char) (hx : '\'' ∈ s) :
    List.IsInfix ("&#039;".data) (escapeHtmlL s) := by
  unfold escapeHtmlL
  apply entity_infix_replace
  exact mem_replaceAllChar_of_ne _ _ _ _
    (mem_replaceAllChar_of_ne _ _ _ _
      (mem_replaceAllChar_of_ne _ _ _ _
        (mem_replaceAllChar_of_ne _ _ _ _ hx (by decide)) (by decide)) (by decide))
    (by decide)

theorem infix_cons_lift {α : Type} (l b : List α) (y : α)
    (h : List.IsInfix l b) : List.IsInfix l (y :: b) := by
  obtain ⟨p, s, heq⟩ := h
  exact ⟨y :: p, s, by simp [heq]⟩

theorem infix_append_left_lift {α : Type} (l a b : List α)
    (h : List.IsInfix l b) : List.IsInfix l (a ++ b) :=
  h.trans ⟨a, [], by simp⟩

theorem infix_drop_left (h : Char) (tl a b : List Char)
    (hne : ∀ y ∈ a, ¬y = h) (hinf : List.IsInfix (h :: tl) (a ++ b)) :
    List.IsInfix (h :: tl) b := by
  induction a with
  | nil => simpa using hinf
  | cons y ys ih =>
    rw [List.cons_append] at hinf
    rcases List.infix_cons_iff.mp hinf with hpre | hinf'
    · have hhead := (List.cons_prefix_cons.mp hpre).1
      exact absurd hhead.symm (hne y (List.mem_cons_self y ys))
    · exact ih (fun z hz => hne z (List.mem_cons_of_mem y hz)) hinf'

theorem linkifyScan_hash (tpl : List Char) (fuel : Nat) (rest : List Char) :
    linkifyScan tpl (fuel + 1) ('#' :: rest) =
      if (rest.takeWhile Char.isDigit).isEmpty then
        '#' :: linkifyScan tpl fuel rest
      else anchorFor tpl ('#' :: rest.takeWhile Char.isDigit) ++
        linkifyScan tpl fuel (rest.dropWhile Char.isDigit) := by
  simp only [linkifyScan, if_true]

theorem linkifyScan_copy (tpl : List Char) (fuel : Nat) (c : Char) (rest : List Char)
    (h1 : ¬c = '#') (h2 : isUpperAZ c = false) :
    linkifyScan tpl (fuel + 1) (c :: rest) = c :: linkifyScan tpl fuel rest := by
  simp only [linkifyScan]
  rw [if_neg h1, if_neg (by simp [h2])]

theorem linkifyScan_upper_cases (tpl : List Char) (fuel : Nat) (c : Char)
    (rest : List Char) (h1 : ¬c = '#') (h2 : isUpperAZ c = true) :
    linkifyScan tpl (fuel + 1) (c :: rest) = c :: linkifyScan tpl fuel rest ∨
    ∃ r2, rest.dropWhile isIdentTail = '-' :: r2 ∧
      linkifyScan tpl (fuel + 1) (c :: rest) =
        anchorFor tpl ((c :: rest.takeWhile isIdentTail) ++
          '-' :: r2.takeWhile Char.isDigit) ++
          linkifyScan tpl fuel (r2.dropWhile Char.isDigit) := by
  simp only [linkifyScan]
  rw [if_neg h1, if_pos h2]
  split
  · rename_i r2 heq
    split
    · exact Or.inl rfl
    · exact Or.inr ⟨r2, heq, rfl⟩
  · exact Or.inl rfl

theorem linkifyScan_entity (tpl : List Char) : ∀ (fuel : Nat) (s : List Char),
    s.length ≤ fuel → List.IsInfix ("#039;".data) s →
    List.IsInfix (anchorFor tpl ("#039".data)) (linkifyScan tpl fuel s) := by
  have hpatexp : ("#039;".data : List Char) = '#' :: ['0', '3', '9', ';'] := by decide
  intro fuel
  induction fuel with
  | zero =>
    intro s hlen hinf
    have hnil : s = [] := List.eq_nil_of_length_eq_zero (Nat.le_zero.mp hlen)
    subst hnil
    exact absurd (List.infix_nil.mp hinf) (by decide)
  | succ fuel ih =>
    intro s hlen hinf
    cases s with
    | nil => exact absurd (List.infix_nil.mp hinf) (by decide)
    | cons c rest =>
      rw [List.length_cons, Nat.succ_le_succ_iff] at hlen
      rw [hpatexp] at hinf
      by_cases hc : c = '#'
      · subst hc
        rw [linkifyScan_hash]
        by_cases hds : (rest.takeWhile Char.isDigit).isEmpty = true
        · rw [if_pos hds]
          rcases List.infix_cons_iff.mp hinf with hpre | hinf'
          · exfalso
            obtain ⟨t, ht⟩ := (List.cons_prefix_cons.mp hpre).2
            rw [← ht, List.cons_append,
              List.takeWhile_cons_of_pos (by decide)] at hds
            simp at hds
          · exact infix_cons_lift _ _ _ (ih rest hlen (hpatexp ▸ hinf'))
        · rw [if_neg hds]
          rcases List.infix_cons_iff.mp hinf with hpre | hinf'
          · obtain ⟨t, ht⟩ := (List.cons_prefix_cons.mp hpre).2
            have hrest : rest = '0' :: '3' :: '9' :: ';' :: t := by
              rw [← ht]
              rfl
            subst hrest
            have h1 : (('0' :: '3' :: '9' :: ';' :: t).takeWhile Char.isDigit) =
                ['0', '3', '9'] := by
              rw [List.takeWhile_cons_of_pos (by decide),
                List.takeWhile_cons_of_pos (by decide),
                List.takeWhile_cons_of_pos (by decide),
                List.takeWhile_cons_of_neg (by decide)]
            have h2 : ('#' :: ['0', '3', '9'] : List Char) = "#039".data := by decide
            have h3 : (('0' :: '3' :: '9' :: ';' :: t).dropWhile Char.isDigit) =
                ';' :: t := by
              rw [List.dropWhile_cons_of_pos (by decide),
                List.dropWhile_cons_of_pos (by decide),
                List.dropWhile_cons_of_pos (by decide),
                List.dropWhile_cons_of_neg (by decide)]
            rw [h1, h2, h3]
            exact ⟨[], linkifyScan tpl fuel (';' :: t), by simp⟩
          · have hsplit : rest =
                rest.takeWhile Char.isDigit ++ rest.dropWhile Char.isDigit :=
              (List.takeWhile_append_dropWhile _ _).symm
            rw [hsplit] at hinf'
            have hdrop := infix_drop_left '#' _ _ _
              (fun y hy h => by
                have := List.mem_takeWhile_imp hy
                rw [h] at this
                exact absurd this (by decide))
              hinf'
            have hlen' : (rest.dropWhile Char.isDigit).length ≤ fuel :=
              le_trans ((List.dropWhile_sublist _).length_le) hlen
            exact infix_append_left_lift _ _ _
              (ih (rest.dropWhile Char.isDigit) hlen' (hpatexp ▸ hdrop))
      · have hnotpre : ¬('#' :: ['0', '3', '9', ';'] <+: c :: rest) := by
          intro hpre
          exact hc ((List.cons_prefix_cons.mp hpre).1.symm)
        have hinf' : ('#' :: ['0', '3', '9', ';'] : List Char) <:+: rest := by
          rcases List.infix_cons_iff.mp hinf with hpre | h
          · exact absurd hpre hnotpre
          · exact h
        by_cases hcu : isUpperAZ c = true
        · rcases linkifyScan_upper_cases tpl fuel c rest hc hcu with heq | ⟨r2, hdw, heq⟩
          · rw [heq]
            exact infix_cons_lift _ _ _ (ih rest hlen (hpatexp ▸ hinf'))
          · rw [heq]
            have hrest : rest = rest.takeWhile isIdentTail ++ ('-' :: r2) := by
              rw [← hdw]
              exact (List.takeWhile_append_dropWhile _ _).symm
            rw [hrest] at hinf'
            have hdr2 := infix_drop_left '#' _ _ _
              (fun y hy h => by
                have := List.mem_takeWhile_imp hy
                rw [h] at this
                exact absurd this (by decide))
              hinf'
            have hinr2 : ('#' :: ['0', '3', '9', ';'] : List Char) <:+: r2 := by
              rcases List.infix_cons_iff.mp hdr2 with hpre | h
              · exact absurd (List.cons_prefix_cons.mp hpre).1 (by decide)
              · exact h
            have hsplit2 : r2 = r2.takeWhile Char.isDigit ++ r2.dropWhile Char.isDigit :=
              (List.takeWhile_append_dropWhile _ _).symm
            rw [hsplit2] at hinr2
            have hdrop2 := infix_drop_left '#' _ _ _
              (fun y hy h => by
                have := List.mem_takeWhile_imp hy
                rw [h] at this
                exact absurd this (by decide))
              hinr2
            have hlenr2 : r2.length < rest.length := by
              rw [hrest, List.length_append, List.length_cons]
              omega
            have hlen' : (r2.dropWhile Char.isDigit).length ≤ fuel :=
              le_trans ((List.dropWhile_sublist _).length_le)
                (by omega : r2.length ≤ fuel)
            exact infix_append_left_lift _ _ _
              (ih (r2.dropWhile Char.isDigit) hlen' (hpatexp ▸ hdrop2))
        · have hcu' : isUpperAZ c = false := by
            cases hv : isUpperAZ c
            · rfl
            · exact absurd hv hcu
          rw [linkifyScan_copy tpl fuel c rest hc hcu']
          exact infix_cons_lift _ _ _ (ih rest hlen (hpatexp ▸ hinf'))

/-- C10: with a non-empty ticket URL template, any task text containing
an apostrophe produces a spurious ticket link: `escapeHtml` rewrites the
apostrophe to the entity `&#039;`, whose `#039` substring matches the
hash-number pattern of the linkifier (the entity's semicolon ends the
digit run), so the output contains the anchor for the match `#039` whose
`href` substitutes the id `039` into the template. -/
theorem linkifyTask_apostrophe_spurious (settings : Settings) (t : String)
    (htpl : ¬settings.ticketUrlTemplate = "") (ht : '\'' ∈ t.data) :
    List.IsInfix (anchorFor settings.ticketUrlTemplate.data ("#039".data))
      ((linkifyTask t settings).data) := by
  unfold linkifyTask
  show List.IsInfix _
    ((if settings.ticketUrlTemplate = "" then escapeHtml t
      else (linkifyCore settings.ticketUrlTemplate.data (escapeHtmlL t.data)).asString).data)
  rw [if_neg htpl]
  show List.IsInfix _
    (linkifyCore settings.ticketUrlTemplate.data (escapeHtmlL t.data))
  have hent := entity_infix_escape t.data ht
  have hpat : List.IsInfix ("#039;".data) (escapeHtmlL t.data) :=
    List.IsInfix.trans ⟨['&'], [], by decide⟩ hent
  exact linkifyScan_entity settings.ticketUrlTemplate.data
    (escapeHtmlL t.data).length (escapeHtmlL t.data) (le_refl _) hpat

/-- C10 witness: the theorem applied to a concrete template and a text
with an apostrophe. -/
theorem linkifyTask_apostrophe_spurious_witness :
    (¬sampleSettings.ticketUrlTemplate = "" ∧ '\'' ∈ sampleTaskText.data) ∧
    List.IsInfix (anchorFor sampleSettings.ticketUrlTemplate.data ("#039".data))
      ((linkifyTask sampleTaskText sampleSettings).data) :=
  ⟨⟨by decide, by decide⟩,
    linkifyTask_apostrophe_spurious sampleSettings sampleTaskText (by decide) (by decide)⟩
